import Mathlib

/-!
# bjut-hz/toys : Lean model of the three demos

* `AOP/Source.cpp`   : the aspect weaving helper `Invoke<AP...>(f, args...)`
* `Any/Any.cpp`      : the type erasing container `any` and `any_cast`
* `MemoryManager/bit_mapped_memory_manager/main.cpp` : the stress driver of the
  bit mapped memory manager (`memmgr.h` and `complex.h` are not part of the
  sources; the manager is modelled from its design document)

Definitions come first, theorems afterwards.
-/

/-! ## AOP/Source.cpp -/

namespace AOP

/-- One call made while a woven function runs, with the value of the arguments it
receives. `Before a x` is `a.Before(x)`, `m_func x` is the call of the wrapped
function, `After a x` is `a.After(x)`. -/
inductive Call (α : Type) where
  | Before (aspect : String) (args : α)
  | m_func (args : α)
  | After (aspect : String) (args : α)
  deriving DecidableEq, Repr

/-- An aspect type as the templates see it, for arguments `Args...` whose values
are the elements of `α`: its name, the two compile time traits
`has_member_Before<T, Args...>::value` and `has_member_After<T, Args...>::value`,
and what its hooks do to the argument objects they are handed. `Before x` is the
value the arguments have when `aspect.Before(std::forward<Args>(args)...)` returns
after receiving `x`: `x` again for a hook that takes copies or only reads, another
value for a hook that writes through a reference parameter or takes over an rvalue.
A field whose trait is `false` is not used. -/
structure AspectType (α : Type) where
  name : String
  has_member_Before : Bool
  has_member_After : Bool
  Before : α → α
  After : α → α

/-- The member `Aspect<Func, Args...>::Invoke(args..., aspects...)`. Every call in
its body is handed `std::forward<Args>(args)...`, the same argument objects, so a
call receives them as the calls before it left them; `m_func x` is the value the
arguments have when the wrapped function returns after receiving `x`.
The result is `none` when the call does not compile (no viable overload, or the
body of the variadic overload names a hook the head aspect lacks), otherwise the
calls it makes in order, and the value of the arguments at the end.

* one aspect with both hooks        : lines 26-31
* one aspect with only `Before`     : lines 33-37
* one aspect with only `After`      : lines 39-43
* head aspect and a tail            : lines 45-50 (the variadic overload; with one
  aspect the three overloads above are more specialised, so it is only chosen
  for a single aspect when all three are disabled, and then its body is ill formed) -/
def Aspect.Invoke {α : Type} (m_func : α → α) (args : α) :
    List (AspectType α) → Option (List (Call α) × α)
  | [] => none
  | [T] =>
    if T.has_member_Before && T.has_member_After then
      let args1 := T.Before args
      let args2 := m_func args1
      some ([Call.Before T.name args, Call.m_func args1, Call.After T.name args2],
        T.After args2)
    else if T.has_member_Before && !T.has_member_After then
      let args1 := T.Before args
      some ([Call.Before T.name args, Call.m_func args1], m_func args1)
    else if !T.has_member_Before && T.has_member_After then
      let args1 := m_func args
      some ([Call.m_func args, Call.After T.name args1], T.After args1)
    else none
  | Head :: Tail0 :: Tail =>
    if Head.has_member_Before && Head.has_member_After then
      match Aspect.Invoke m_func (Head.Before args) (Tail0 :: Tail) with
      | some (inner, args1) =>
        some (Call.Before Head.name args :: inner ++ [Call.After Head.name args1],
          Head.After args1)
      | none => none
    else none

/-- The helper `Invoke<AP...>(f, args...)` of lines 58-62: builds the `Aspect`
around `f` and calls its member `Invoke` with default constructed aspects. The
result is the list of calls made. -/
def Invoke {α : Type} (f : α → α) (AP : List (AspectType α)) (args : α) :
    Option (List (Call α)) :=
  match Aspect.Invoke f args AP with
  | some r => some r.1
  | none => none

/-- The test aspect `TimeElapsedAspect`: it has `Before(int)` and `After(int)`,
which take the `int` by value. -/
def TimeElapsedAspect : AspectType Int := ⟨"TimeElapsedAspect", true, true, id, id⟩

/-- The test aspect `LoggingAspect`: `Before(int)` only, by value; `After` is
commented out. -/
def LoggingAspect : AspectType Int := ⟨"LoggingAspect", true, false, id, id⟩

/-- The wrapped function `void foo(int a)`: it takes a copy of its argument. -/
def foo : Int → Int := id

/-- The calls made by `main`: `Invoke<LoggingAspect>(&foo, 1)`. -/
def main : Option (List (Call Int)) := Invoke foo [LoggingAspect] (1 : Int)

/-- An aspect whose hooks take the argument by reference and write to it:
`void Before(int& i) { ++i; }` and `void After(int& i) { ++i; }`. -/
def Bump (name : String) : AspectType Int := ⟨name, true, true, fun i => i + 1, fun i => i + 1⟩

/-- How often the wrapped function is called in a trace. -/
def countFunc {α : Type} : List (Call α) → Nat
  | [] => 0
  | Call.m_func _ :: t => countFunc t + 1
  | _ :: t => countFunc t

/-- The `Before` calls of the aspects in listed order, each receiving the arguments
as the hooks before it left them. -/
def beforeCalls {α : Type} (args : α) : List (AspectType α) → List (Call α)
  | [] => []
  | A :: rest => Call.Before A.name args :: beforeCalls (A.Before args) rest

/-- The arguments after the `Before` hooks of all listed aspects ran in order. -/
def afterBefores {α : Type} (args : α) : List (AspectType α) → α
  | [] => args
  | A :: rest => afterBefores (A.Before args) rest

/-- The arguments after the `After` hooks of the listed aspects ran, last listed
first, starting from `args`. -/
def afterAfters {α : Type} (args : α) : List (AspectType α) → α
  | [] => args
  | A :: rest => A.After (afterAfters args rest)

/-- The `After` calls of the listed aspects, last listed first, each receiving the
arguments as the hooks before it left them. -/
def afterCalls {α : Type} (args : α) : List (AspectType α) → List (Call α)
  | [] => []
  | A :: rest => afterCalls args rest ++ [Call.After A.name (afterAfters args rest)]

end AOP

/-! ## Any/Any.cpp -/

namespace Any

/-- A value of `std::type_info` as far as the container uses it: `typeid(void)`,
`typeid(any)` for the container type itself, or `typeid(T)` for a value type `T`.
The universe `U` names the value types other than `any`: these are the types for
which the converting constructor of line 10 is chosen. -/
inductive type_info (U : Type) where
  | void
  | any
  | of (T : U)
  deriving DecidableEq, Repr

/-- The object behind `placeholder * content`: a `holder<ValueType>` with its
field `held`. `El T` is the set of values of the value type `T`. -/
structure holder {U : Type} (El : U → Type) where
  ValueType : U
  held : El ValueType

/-- The virtual `holder<ValueType>::type()`. -/
def holder.type {U : Type} {El : U → Type} (h : holder El) : type_info U :=
  type_info.of h.ValueType

/-- The virtual `holder<ValueType>::clone()`: a new holder of the same value. -/
def holder.clone {U : Type} {El : U → Type} (h : holder El) : holder El :=
  ⟨h.ValueType, h.held⟩

/-- The class `any`: `content` is null (`none`) or points to a holder. -/
structure any {U : Type} (El : U → Type) where
  content : Option (holder El)

/-- The default constructor `any() : content(0)`. -/
def any.default {U : Type} (El : U → Type) : any El := ⟨none⟩

/-- The converting constructor template `any(const ValueType & value)` of line 10,
for a value type `ValueType` other than `any`. -/
def any.ofValue {U : Type} {El : U → Type} (T : U) (value : El T) : any El :=
  ⟨some ⟨T, value⟩⟩

/-- The copy constructor of line 12: clones the content when there is one. -/
def any.copy {U : Type} {El : U → Type} (other : any El) : any El :=
  ⟨match other.content with
   | some c => some c.clone
   | none => none⟩

/-- The object an `any` is constructed from: a value of a value type `T`, or an
object of type `any` itself. -/
inductive Arg {U : Type} (El : U → Type) where
  | value (T : U) (v : El T)
  | anyValue (other : any El)

/-- The `typeid` of the type of a constructor argument. -/
def Arg.typeid {U : Type} {El : U → Type} : Arg El → type_info U
  | Arg.value T _ => type_info.of T
  | Arg.anyValue _ => type_info.any

/-- Construction of an `any` from one argument, with the choice between the two
one-argument constructors: for an argument of type `any` the copy constructor of
line 12 is the better match (a non-template is preferred to the template of line 10
with the same parameter type); for every other type the template is the only
candidate. -/
def any.construct {U : Type} {El : U → Type} : Arg El → any El
  | Arg.value T v => any.ofValue T v
  | Arg.anyValue other => any.copy other

/-- The member `swap`: exchanges the two contents. -/
def any.swap {U : Type} {El : U → Type} (self rhs : any El) : any El × any El :=
  (⟨rhs.content⟩, ⟨self.content⟩)

/-- The member `empty()`: `!content`. -/
def any.empty {U : Type} {El : U → Type} (a : any El) : Bool :=
  match a.content with
  | some _ => false
  | none => true

/-- The member `type()`: `content ? content->type() : typeid(void)`. -/
def any.type {U : Type} {El : U → Type} (a : any El) : type_info U :=
  match a.content with
  | some c => c.type
  | none => type_info.void

/-- What a call of `any_cast` does: it returns a value, or the `assert` aborts
the program, or it goes on to use `content` as a holder of a type it is not. -/
inductive Outcome (β : Type) where
  | value (v : β)
  | assertion_failed
  | bad_cast
  deriving DecidableEq, Repr

/-- The condition of the `assert` in `any_cast<ValueType>`. -/
def any_cast.assertion {U : Type} [DecidableEq U] {El : U → Type} (T : U)
    (operand : any El) : Bool :=
  decide (operand.type = type_info.of T)

/-- The function `any_cast<ValueType>(operand)` of lines 79-83, asserts enabled:
first the assertion, then the `static_cast` of `content` and the read of `held`.
The cast is only meaningful when `content` is a `holder<ValueType>`. -/
def any_cast {U : Type} [DecidableEq U] {El : U → Type} (T : U)
    (operand : any El) : Outcome (El T) :=
  if any_cast.assertion T operand then
    match operand.content with
    | some c => if h : c.ValueType = T then Outcome.value (h ▸ c.held) else Outcome.bad_cast
    | none => Outcome.bad_cast
  else Outcome.assertion_failed

/-- The two value types that `main` of Any.cpp stores. -/
inductive CppType where
  | int
  | string
  deriving DecidableEq, Repr

/-- Values of the two types. -/
def CppType.El : CppType → Type
  | CppType.int => Int
  | CppType.string => String

/-- The function `main` of Any.cpp: the two values read back, `i_b` and `s_b`. -/
def main : Outcome Int × Outcome String :=
  let i_a : any CppType.El := any.construct (Arg.value CppType.int (3 : Int))
  let i_b := any_cast CppType.int i_a
  let s_a : any CppType.El := any.construct (Arg.value CppType.string "demo")
  let s_b := any_cast CppType.string s_a
  (i_b, s_b)

end Any

/-! ## MemoryManager/bit_mapped_memory_manager/main.cpp -/

namespace MemMgr

/-- The error kinds of the memory manager. -/
inductive Error where
  | InvalidAddress
  | DoubleFree
  | Exhausted
  | OutOfMemory
  | UnknownAddress
  deriving DecidableEq, Repr

/-- Why a run of the driver stops early: the manager reported an error, or the
driver itself went wrong (no manager installed, an index outside `array`, a slot
of `array` read before it was written, a pointer deleted that is not outstanding). -/
inductive Fault where
  | manager (e : Error)
  | nullManager
  | indexOutOfRange
  | uninitialised
  | notLive
  deriving DecidableEq, Repr

/-- What `main` uses from `memmgr.h` and `complex.h`, over a program state `σ`:
`gMemoryManager = new MemoryManager()`, `new Complex(i, j)` (which returns the
pointer), `delete p`, and `delete gMemoryManager`. -/
structure Runtime (σ : Type) where
  newManager : σ → Except Fault σ
  newComplex : σ → Nat → Nat → Except Fault (Nat × σ)
  deleteComplex : σ → Nat → Except Fault σ
  deleteManager : σ → Except Fault σ

/-- The loop `for (int j = lo; j < lo + count; j++) body`, threading the state and
stopping at the first fault. -/
def forLoop {σ : Type} (body : Nat → σ → Except Fault σ) : Nat → Nat → σ → Except Fault σ
  | 0, _, s => Except.ok s
  | count + 1, j, s =>
    match body j s with
    | Except.ok s1 => forLoop body count (j + 1) s1
    | Except.error e => Except.error e

/-- The local `Complex* array[size]` with its memory holding nothing yet. -/
def newArray (size : Nat) : List (Option Nat) := List.replicate size none

/-- The store `array[j] = p`. -/
def store (array : List (Option Nat)) (j p : Nat) : Except Fault (List (Option Nat)) :=
  if j < array.length then Except.ok (array.set j (some p)) else Except.error Fault.indexOutOfRange

/-- The read of `array[j]`. -/
def load (array : List (Option Nat)) (j : Nat) : Except Fault Nat :=
  match array[j]? with
  | some (some p) => Except.ok p
  | some none => Except.error Fault.uninitialised
  | none => Except.error Fault.indexOutOfRange

/-- Line 16, `array[j] = new Complex(i, j);`. -/
def allocStep {σ : Type} (R : Runtime σ) (i j : Nat) (st : List (Option Nat) × σ) :
    Except Fault (List (Option Nat) × σ) :=
  match R.newComplex st.2 i j with
  | Except.ok (p, s1) =>
    match store st.1 j p with
    | Except.ok array1 => Except.ok (array1, s1)
    | Except.error e => Except.error e
  | Except.error e => Except.error e

/-- Line 19, `delete array[j];`. -/
def freeStep {σ : Type} (R : Runtime σ) (j : Nat) (st : List (Option Nat) × σ) :
    Except Fault (List (Option Nat) × σ) :=
  match load st.1 j with
  | Except.ok p =>
    match R.deleteComplex st.2 p with
    | Except.ok s1 => Except.ok (st.1, s1)
    | Except.error e => Except.error e
  | Except.error e => Except.error e

/-- Lines 15-20, the body of the outer loop for one value of `i`. -/
def outerBody {σ : Type} (R : Runtime σ) (inner : Nat) (i : Nat)
    (st : List (Option Nat) × σ) : Except Fault (List (Option Nat) × σ) :=
  match forLoop (allocStep R i) inner 0 st with
  | Except.ok st1 => forLoop (freeStep R) inner 0 st1
  | Except.error e => Except.error e

/-- Lines 11-21 with the outer loop cut after `k` iterations: the manager is
installed, `array` is declared, and `k` rounds of the outer loop run. -/
def mainLoopWith {σ : Type} (R : Runtime σ) (size inner k : Nat) (start : σ) :
    Except Fault (List (Option Nat) × σ) :=
  match R.newManager start with
  | Except.ok s => forLoop (outerBody R inner) k 0 (newArray size, s)
  | Except.error e => Except.error e

/-- Lines 11-22 for an array of `size` slots, `outer` rounds and `inner` objects
per round: the loops and then `delete gMemoryManager`. -/
def mainWith {σ : Type} (R : Runtime σ) (size outer inner : Nat) (start : σ) : Except Fault σ :=
  match mainLoopWith R size inner outer start with
  | Except.ok st => R.deleteManager st.2
  | Except.error e => Except.error e

/-- The state of `main` after line 21, just before the manager is deleted. -/
def mainLoop {σ : Type} (R : Runtime σ) (start : σ) : Except Fault (List (Option Nat) × σ) :=
  mainLoopWith R 1000 1000 500 start

/-- The function `main` of main.cpp: `array` has 1000 slots, the outer loop runs
500 times and each inner loop 1000 times. -/
def main {σ : Type} (R : Runtime σ) (start : σ) : Except Fault σ :=
  mainWith R 1000 500 1000 start

/-! ### A bookkeeping runtime that observes what the driver does -/

/-- What an observer of the driver records: whether a manager is installed, how
many were created and deleted, the outstanding objects (each `new` hands out the
next fresh pointer), the largest number outstanding so far, and the counts of
`new` and `delete`. -/
structure Ledger where
  managerLive : Bool
  created : Nat
  deleted : Nat
  fresh : Nat
  live : List Nat
  peak : Nat
  allocs : Nat
  frees : Nat
  deriving DecidableEq, Repr

/-- The ledger at program start. -/
def Ledger.start : Ledger := ⟨false, 0, 0, 0, [], 0, 0, 0⟩

/-- The observing runtime. A `new` or `delete` without an installed manager, and a
`delete` of a pointer that is not outstanding, are faults. -/
def ledgerRuntime : Runtime Ledger where
  newManager := fun s =>
    Except.ok { s with managerLive := true, created := s.created + 1 }
  newComplex := fun s _ _ =>
    if s.managerLive then
      Except.ok (s.fresh, { s with
        fresh := s.fresh + 1, live := s.fresh :: s.live,
        peak := max s.peak (s.live.length + 1), allocs := s.allocs + 1 })
    else Except.error Fault.nullManager
  deleteComplex := fun s p =>
    if s.managerLive then
      if p ∈ s.live then Except.ok { s with live := s.live.erase p, frees := s.frees + 1 }
      else Except.error Fault.notLive
    else Except.error Fault.nullManager
  deleteManager := fun s =>
    if s.managerLive then Except.ok { s with managerLive := false, deleted := s.deleted + 1 }
    else Except.error Fault.nullManager

/-! ### The memory manager, modelled from its design document

`memmgr.h` and `complex.h` are not among the sources. The definitions below follow
the design document of the manager section by section. Addresses are natural
numbers. Every operation returns its result together with the state it leaves. -/

/-- Modelled from the spec: the `BlockPool` of the absent `memmgr.h` (data model):
`base`, `blockSize`, `blockCount`, the `bitmap` with one bit per slot (`true` is
occupied) and the cached `freeCount`. -/
structure BlockPool where
  base : Nat
  blockSize : Nat
  blockCount : Nat
  bitmap : List Bool
  freeCount : Nat
  deriving DecidableEq, Repr

/-- Modelled from the spec: construction of a `BlockPool` of the absent `memmgr.h`;
a new pool has every slot free. -/
def BlockPool.create (base blockSize blockCount : Nat) : BlockPool :=
  ⟨base, blockSize, blockCount, List.replicate blockCount false, blockCount⟩

/-- Modelled from the spec: the bitmap scan of `BlockPool::allocate` in the absent
`memmgr.h`, first fit by ascending index: the index of the first zero bit. -/
def firstZero : List Bool → Option Nat
  | [] => none
  | false :: _ => some 0
  | true :: rest =>
    match firstZero rest with
    | some index => some (index + 1)
    | none => none

/-- Modelled from the spec: the number of zero bits of a bitmap, which the absent
`memmgr.h` caches in `freeCount`. -/
def zeroBits (bitmap : List Bool) : Nat := bitmap.count false

/-- Modelled from the spec: `BlockPool::allocate` of the absent `memmgr.h`. With
`freeCount == 0` it fails with `Exhausted`; otherwise it takes the first zero bit,
sets it, decrements `freeCount` and returns `base + index * blockSize`. The pool
never grows. -/
def BlockPool.allocate (p : BlockPool) : Except Error Nat × BlockPool :=
  if p.freeCount = 0 then (Except.error Error.Exhausted, p)
  else
    match firstZero p.bitmap with
    | some index =>
      (Except.ok (p.base + index * p.blockSize),
        { p with bitmap := p.bitmap.set index true, freeCount := p.freeCount - 1 })
    | none => (Except.error Error.Exhausted, p)

/-- Modelled from the spec: `BlockPool::ownsAddress` of the absent `memmgr.h`, the
range and alignment check `base <= address < base + blockSize * blockCount` and
`(address - base) % blockSize == 0`. -/
def BlockPool.ownsAddress (p : BlockPool) (address : Nat) : Bool :=
  decide (p.base ≤ address) && decide (address < p.base + p.blockSize * p.blockCount) &&
    decide ((address - p.base) % p.blockSize = 0)

/-- Modelled from the spec: `BlockPool::free` of the absent `memmgr.h`. An address
outside the range or misaligned is `InvalidAddress`; a bit that is already zero is
`DoubleFree`; otherwise the bit is cleared and `freeCount` incremented. -/
def BlockPool.free (p : BlockPool) (address : Nat) : Except Error Unit × BlockPool :=
  if p.ownsAddress address then
    let index := (address - p.base) / p.blockSize
    if p.bitmap.getD index false then
      (Except.ok (), { p with bitmap := p.bitmap.set index false, freeCount := p.freeCount + 1 })
    else (Except.error Error.DoubleFree, p)
  else (Except.error Error.InvalidAddress, p)

/-- Modelled from the spec: `SizeClassRegistry::resolve` of the absent `memmgr.h`.
The registry is the list of pools in ascending order of `blockSize` and a handle is
a position in it; the ascending scan returns the first class with
`blockSize >= requestedBytes`, and `none` stands for `UseFallback`. -/
def SizeClassRegistry.resolve : List BlockPool → Nat → Option Nat
  | [], _ => none
  | p :: rest, requestedBytes =>
    if requestedBytes ≤ p.blockSize then some 0
    else
      match SizeClassRegistry.resolve rest requestedBytes with
      | some handle => some (handle + 1)
      | none => none

/-- Modelled from the spec: the routing of `MemoryManager::free` in the absent
`memmgr.h`: `ownsAddress` is tried across the pools in ascending order and the scan
stops at the first match. -/
def ownerOf : List BlockPool → Nat → Option Nat
  | [], _ => none
  | p :: rest, address =>
    if p.ownsAddress address then some 0
    else
      match ownerOf rest address with
      | some handle => some (handle + 1)
      | none => none

/-- Modelled from the spec: the metadata that the leak tracker of the absent
`memmgr.h` keeps for a live address: the owning pool (`none` is the tag
"fallback") and the size requested. -/
structure Allocation where
  pool : Option Nat
  size : Nat
  deriving DecidableEq, Repr

/-- Modelled from the spec: lookup in the leak tracker of the absent `memmgr.h`, a
mapping from live address to metadata. -/
def LeakTracker.lookup (t : List (Nat × Allocation)) (address : Nat) : Option Allocation :=
  match t.find? (fun e => e.1 == address) with
  | some e => some e.2
  | none => none

/-- Modelled from the spec: removal of an address from the leak tracker of the
absent `memmgr.h`. -/
def LeakTracker.remove (t : List (Nat × Allocation)) (address : Nat) : List (Nat × Allocation) :=
  t.filter (fun e => e.1 != address)

/-- Modelled from the spec: recording an address in the leak tracker of the absent
`memmgr.h`; a mapping has one entry per address. -/
def LeakTracker.insert (t : List (Nat × Allocation)) (address : Nat) (info : Allocation) :
    List (Nat × Allocation) :=
  (address, info) :: LeakTracker.remove t address

/-- Modelled from the spec: the fallback allocator capability that the absent
`memmgr.h` is configured with, `allocate(bytes) -> address` (`none` when it fails)
and `free(address)`, over its own state `F`. -/
structure FallbackAllocator (F : Type) where
  allocate : F → Nat → Option (Nat × F)
  free : F → Nat → F

/-- Modelled from the spec: the `MemoryManager` of the absent `memmgr.h`: the pools
in registry order, the stated exhaustion policy (`true`: fall back to the backing
allocator, `false`: fail with `OutOfMemory`), the state of the fallback allocator
and the leak tracker. -/
structure MemoryManager (F : Type) where
  pools : List BlockPool
  fallbackOnExhausted : Bool
  fallback : F
  tracker : List (Nat × Allocation)

/-- Modelled from the spec: one configured size class of the absent `memmgr.h`,
`blockSize` and `blockCount`, with the address `base` at which its arena is
reserved when the manager is constructed. -/
structure SizeClass where
  base : Nat
  blockSize : Nat
  blockCount : Nat
  deriving DecidableEq, Repr

/-- Modelled from the spec: construction of the `MemoryManager` of the absent
`memmgr.h` from its enumerated size classes: one fresh pool per class, nothing
tracked. -/
def MemoryManager.create {F : Type} (classes : List SizeClass) (fallbackOnExhausted : Bool)
    (fallback : F) : MemoryManager F :=
  ⟨classes.map (fun c => BlockPool.create c.base c.blockSize c.blockCount),
    fallbackOnExhausted, fallback, []⟩

/-- Modelled from the spec: step 1 of `MemoryManager::allocate` in the absent
`memmgr.h`, delegation to the fallback allocator; the address is recorded with the
tag "fallback", and a failing fallback is `OutOfMemory`. -/
def MemoryManager.allocateFallback {F : Type} (A : FallbackAllocator F) (m : MemoryManager F)
    (bytes : Nat) : Except Error Nat × MemoryManager F :=
  match A.allocate m.fallback bytes with
  | some (address, fallback1) =>
    (Except.ok address,
      { m with fallback := fallback1,
               tracker := LeakTracker.insert m.tracker address ⟨none, bytes⟩ })
  | none => (Except.error Error.OutOfMemory, m)

/-- Modelled from the spec: `MemoryManager::allocate` of the absent `memmgr.h`:
resolve the size class; without one use the fallback; otherwise allocate from the
resolved pool and record the address with its pool and size; an exhausted pool
follows the stated policy. -/
def MemoryManager.allocate {F : Type} (A : FallbackAllocator F) (m : MemoryManager F)
    (bytes : Nat) : Except Error Nat × MemoryManager F :=
  match SizeClassRegistry.resolve m.pools bytes with
  | none => m.allocateFallback A bytes
  | some handle =>
    match m.pools[handle]? with
    | none => (Except.error Error.OutOfMemory, m)
    | some p =>
      match p.allocate with
      | (Except.ok address, p1) =>
        (Except.ok address,
          { m with pools := m.pools.set handle p1,
                   tracker := LeakTracker.insert m.tracker address ⟨some handle, bytes⟩ })
      | (Except.error _, _) =>
        if m.fallbackOnExhausted then m.allocateFallback A bytes
        else (Except.error Error.OutOfMemory, m)

/-- Modelled from the spec: `MemoryManager::free` of the absent `memmgr.h`: an
address tagged "fallback" in the tracker goes to the fallback allocator; otherwise
the first pool that owns the address frees it and its error, if any, is returned;
an address that nobody claims is `UnknownAddress`. On success the tracker entry is
removed. -/
def MemoryManager.free {F : Type} (A : FallbackAllocator F) (m : MemoryManager F)
    (address : Nat) : Except Error Unit × MemoryManager F :=
  match LeakTracker.lookup m.tracker address with
  | some ⟨none, _⟩ =>
    (Except.ok (),
      { m with fallback := A.free m.fallback address,
               tracker := LeakTracker.remove m.tracker address })
  | _ =>
    match ownerOf m.pools address with
    | none => (Except.error Error.UnknownAddress, m)
    | some handle =>
      match m.pools[handle]? with
      | none => (Except.error Error.UnknownAddress, m)
      | some p =>
        match p.free address with
        | (Except.ok _, p1) =>
          (Except.ok (),
            { m with pools := m.pools.set handle p1,
                     tracker := LeakTracker.remove m.tracker address })
        | (Except.error e, _) => (Except.error e, m)

/-- Modelled from the spec: `outstandingAllocations` of the absent `memmgr.h`, the
tracked entries as `(address, size, pool)`. -/
def MemoryManager.outstandingAllocations {F : Type} (m : MemoryManager F) :
    List (Nat × Nat × Option Nat) :=
  m.tracker.map (fun e => (e.1, e.2.size, e.2.pool))

/-- Modelled from the spec: `MemoryManager::teardown` of the absent `memmgr.h`: the
leak report is the list of entries still tracked. -/
def MemoryManager.teardown {F : Type} (m : MemoryManager F) : List (Nat × Nat × Option Nat) :=
  m.outstandingAllocations

/-- Modelled from the spec: the invariant of one pool of the absent `memmgr.h`:
slots have a size, the bitmap has one bit per slot, and `freeCount` is the number
of zero bits. -/
def BlockPool.WF (p : BlockPool) : Prop :=
  0 < p.blockSize ∧ p.bitmap.length = p.blockCount ∧ p.freeCount = zeroBits p.bitmap

/-- Modelled from the spec: two pools of the absent `memmgr.h` own their arenas
exclusively, so the two address ranges do not meet. -/
def BlockPool.Apart (p q : BlockPool) : Prop :=
  p.base + p.blockSize * p.blockCount ≤ q.base ∨ q.base + q.blockSize * q.blockCount ≤ p.base

/-- Modelled from the spec: the invariant of the manager of the absent `memmgr.h`:
every pool satisfies its invariant and the arenas are pairwise apart. -/
def MemoryManager.WF {F : Type} (m : MemoryManager F) : Prop :=
  (∀ p ∈ m.pools, p.WF) ∧ m.pools.Pairwise BlockPool.Apart

/-- Modelled from the spec: a configuration of the absent `memmgr.h` that can be
constructed: every class has a block size and the arenas are pairwise apart. -/
def ValidClasses (classes : List SizeClass) : Prop :=
  (∀ c ∈ classes, 0 < c.blockSize) ∧
    classes.Pairwise (fun c d =>
      c.base + c.blockSize * c.blockCount ≤ d.base ∨ d.base + d.blockSize * d.blockCount ≤ c.base)

/-- The `freeCount` of every pool, in registry order. -/
def MemoryManager.freeCounts {F : Type} (m : MemoryManager F) : List Nat :=
  m.pools.map (fun p => p.freeCount)

/-- Modelled from the spec: the globals of the program built on the absent
`memmgr.h`: `gMemoryManager` (`none` is the null pointer) and the leak report that
the teardown of the manager printed, if it ran. -/
structure Program (F : Type) where
  gMemoryManager : Option (MemoryManager F)
  leakReport : Option (List (Nat × Nat × Option Nat))

/-- The program state at the start of `main`. -/
def Program.start (F : Type) : Program F := ⟨none, none⟩

/-- Modelled from the spec: what `memmgr.h` and `complex.h` (both absent) give to
`main`: `new MemoryManager()` constructs the manager from its configuration,
`new Complex(i, j)` asks the installed manager for `sizeofComplex` bytes,
`delete p` hands `p` back to it, and `delete gMemoryManager` tears it down and
reports the leaks. -/
def managerRuntime {F : Type} (A : FallbackAllocator F) (classes : List SizeClass)
    (fallbackOnExhausted : Bool) (fallback : F) (sizeofComplex : Nat) : Runtime (Program F) where
  newManager := fun s =>
    Except.ok { s with
      gMemoryManager := some (MemoryManager.create classes fallbackOnExhausted fallback) }
  newComplex := fun s _ _ =>
    match s.gMemoryManager with
    | none => Except.error Fault.nullManager
    | some m =>
      match m.allocate A sizeofComplex with
      | (Except.ok address, m1) => Except.ok (address, { s with gMemoryManager := some m1 })
      | (Except.error e, _) => Except.error (Fault.manager e)
  deleteComplex := fun s p =>
    match s.gMemoryManager with
    | none => Except.error Fault.nullManager
    | some m =>
      match m.free A p with
      | (Except.ok _, m1) => Except.ok { s with gMemoryManager := some m1 }
      | (Except.error e, _) => Except.error (Fault.manager e)
  deleteManager := fun s =>
    match s.gMemoryManager with
    | none => Except.ok s
    | some m => Except.ok { gMemoryManager := none, leakReport := some m.teardown }

/-- A fallback allocator for examples: it hands out `next`, `next + bytes`, ... and
forgets what is freed. -/
def bumpAllocator : FallbackAllocator Nat where
  allocate := fun next bytes => some (next, next + bytes + 1)
  free := fun next _ => next


/-- The address `address` is that of an occupied slot of the pool: it was issued by
`allocate` and has not been freed since. -/
def BlockPool.Issued (p : BlockPool) (address : Nat) : Prop :=
  ∃ index, index < p.blockCount ∧ address = p.base + index * p.blockSize ∧
    p.bitmap[index]? = some true

/-- The results of `n` successive calls of `BlockPool.allocate`, in order, and the
pool they leave. -/
def BlockPool.allocateMany : Nat → BlockPool → List (Except Error Nat) × BlockPool
  | 0, p => ([], p)
  | n + 1, p =>
    let r := p.allocate
    let rest := BlockPool.allocateMany n r.2
    (r.1 :: rest.1, rest.2)

/-- The results of successive calls of `MemoryManager.allocate`, one per requested
size and with no `free` in between, and the manager they leave. -/
def MemoryManager.allocateAll {F : Type} (A : FallbackAllocator F) :
    List Nat → MemoryManager F → List (Except Error Nat) × MemoryManager F
  | [], m => ([], m)
  | bytes :: rest, m =>
    let r := m.allocate A bytes
    let tail := MemoryManager.allocateAll A rest r.2
    (r.1 :: tail.1, tail.2)

/-- A pool of `K` slots whose first `n` slots are occupied and the others free. -/
def BlockPool.filled (base B K n : Nat) : BlockPool :=
  ⟨base, B, K, List.replicate n true ++ List.replicate (K - n) false, K - n⟩

instance BlockPool.decidableWF (p : BlockPool) : Decidable p.WF :=
  inferInstanceAs (Decidable
    (0 < p.blockSize ∧ p.bitmap.length = p.blockCount ∧ p.freeCount = zeroBits p.bitmap))

instance BlockPool.decidableApart (p q : BlockPool) : Decidable (BlockPool.Apart p q) :=
  inferInstanceAs (Decidable
    (p.base + p.blockSize * p.blockCount ≤ q.base ∨ q.base + q.blockSize * q.blockCount ≤ p.base))

instance MemoryManager.decidableWF {F : Type} (m : MemoryManager F) : Decidable m.WF :=
  inferInstanceAs (Decidable ((∀ p ∈ m.pools, p.WF) ∧ m.pools.Pairwise BlockPool.Apart))

/-- A configuration for examples: two pools of 16 byte slots at address 100 and two
of 64 byte slots at address 1000. -/
def exampleClasses : List SizeClass := [⟨100, 16, 2⟩, ⟨1000, 64, 2⟩]

/-- A manager for examples: fresh, built from `exampleClasses`, with the policy to
fail when a pool is exhausted and the fallback allocator starting at 5000. -/
def exampleManager : MemoryManager Nat := MemoryManager.create exampleClasses false 5000

/-- The address is `base + index * blockSize` for an index below `blockCount`: it
lies in the address range of the pool, on a slot boundary. -/
def BlockPool.hasSlot (p : BlockPool) (address : Nat) : Prop :=
  ∃ index, index < p.blockCount ∧ address = p.base + index * p.blockSize

/-- The address is that of an occupied slot of some pool of the manager. -/
def MemoryManager.Occupied {F : Type} (m : MemoryManager F) (address : Nat) : Prop :=
  ∃ (h : Nat) (p : BlockPool), m.pools[h]? = some p ∧ p.Issued address

/-- A pool of `K` slots in which exactly the slots `j .. n - 1` are occupied. -/
def BlockPool.band (base B K j n : Nat) : BlockPool :=
  ⟨base, B, K,
    List.replicate j false ++ (List.replicate (n - j) true ++ List.replicate (K - n) false),
    K - n + j⟩

/-- A configuration for examples whose 32 byte class has room for the workload. -/
def workloadClasses : List SizeClass := [⟨4096, 16, 64⟩, ⟨8192, 32, 1024⟩]

/-- The number of occupied slots in a list of pools. -/
def occupiedSlots : List BlockPool → Nat
  | [] => 0
  | p :: rest => p.bitmap.count true + occupiedSlots rest

/-- The number of tracker entries tagged "fallback". -/
def fallbackTagged : List (Nat × Allocation) → Nat
  | [] => 0
  | e :: rest => (if e.2.pool = none then 1 else 0) + fallbackTagged rest

/-- What the manager has handed out and not got back: the occupied slots of its
pools and the tracked fallback allocations. -/
def MemoryManager.handedOut {F : Type} (m : MemoryManager F) : Nat :=
  occupiedSlots m.pools + fallbackTagged m.tracker

/-- The invariant of the manager together with its tracker: every tracked entry
that names a pool is the address of an occupied slot. -/
def MemoryManager.Consistent {F : Type} (m : MemoryManager F) : Prop :=
  m.WF ∧ ∀ e ∈ m.tracker, e.2.pool ≠ none → m.Occupied e.1

end MemMgr

/-! ## Theorems -/

namespace AOP

theorem Aspect.Invoke_both {α : Type} (f : α → α) :
    ∀ (APs : List (AspectType α)) (args : α), APs ≠ [] →
      (∀ A ∈ APs, A.has_member_Before = true ∧ A.has_member_After = true) →
      Aspect.Invoke f args APs =
        some (beforeCalls args APs ++ [Call.m_func (afterBefores args APs)] ++
            afterCalls (f (afterBefores args APs)) APs,
          afterAfters (f (afterBefores args APs)) APs)
  | [], _, h, _ => absurd rfl h
  | [T], args, _, hall => by
    have := hall T (by simp)
    simp [Aspect.Invoke, this.1, this.2, beforeCalls, afterBefores, afterCalls, afterAfters]
  | Head :: Tail0 :: Tail, args, _, hall => by
    have hH := hall Head (by simp)
    have ih := Aspect.Invoke_both f (Tail0 :: Tail) (Head.Before args) (by simp)
      (fun A hA => hall A (List.mem_cons_of_mem _ hA))
    rw [Aspect.Invoke]
    simp only [hH.1, hH.2, Bool.and_self, if_true, ih]
    simp [beforeCalls, afterBefores, afterCalls, afterAfters]

theorem countFunc_append {α : Type} (l₁ l₂ : List (Call α)) :
    countFunc (l₁ ++ l₂) = countFunc l₁ + countFunc l₂ := by
  induction l₁ with
  | nil => simp [countFunc]
  | cons c t ih =>
    cases c <;> simp [countFunc, ih]
    omega

theorem countFunc_beforeCalls {α : Type} (APs : List (AspectType α)) :
    ∀ args : α, countFunc (beforeCalls args APs) = 0 := by
  induction APs with
  | nil => intro _; rfl
  | cons A t ih => intro args; simpa [beforeCalls, countFunc] using ih (A.Before args)

theorem countFunc_afterCalls {α : Type} (args : α) (APs : List (AspectType α)) :
    countFunc (afterCalls args APs) = 0 := by
  induction APs with
  | nil => rfl
  | cons A t ih => simp [afterCalls, countFunc_append, ih, countFunc]

/-- When no hook changes the arguments, every call receives the arguments that
`Invoke` was given. -/
theorem calls_unchanged {α : Type} (APs : List (AspectType α))
    (hall : ∀ A ∈ APs, (∀ x, A.Before x = x) ∧ (∀ x, A.After x = x)) (args : α) :
    beforeCalls args APs = APs.map (fun A => Call.Before A.name args) ∧
      afterBefores args APs = args ∧ afterAfters args APs = args ∧
      afterCalls args APs = APs.reverse.map (fun A => Call.After A.name args) := by
  induction APs with
  | nil => simp [beforeCalls, afterBefores, afterAfters, afterCalls]
  | cons A t ih =>
    have hA := hall A (by simp)
    obtain ⟨h1, h2, h3, h4⟩ := ih (fun B hB => hall B (List.mem_cons_of_mem _ hB))
    refine ⟨?_, ?_, ?_, ?_⟩
    · simp [beforeCalls, hA.1, h1]
    · simp [afterBefores, hA.1, h2]
    · simp [afterAfters, hA.2, h3]
    · simp [afterCalls, h3, h4]

/-- C7, the claim as stated fails: with the argument an `int` lvalue `1` and an
aspect whose `Before(int&)` and `After(int&)` increment it, `Invoke<Bump>(&foo, x)`
calls `Before(1)`, then `foo(2)`, then `After(2)`, not `foo(1)` and `After(1)`. -/
theorem C7_counterexample_hook_writes_argument :
    Invoke foo [Bump "Bump"] (1 : Int) =
        some [Call.Before "Bump" 1, Call.m_func 2, Call.After "Bump" 2] ∧
      Invoke foo [Bump "Bump"] (1 : Int) ≠
        some [Call.Before "Bump" 1, Call.m_func 1, Call.After "Bump" 1] := by
  constructor <;> decide

/-- C7 as amended: for one aspect `AP` with at least one of the hooks,
`Invoke<AP>(f, args)` compiles and calls `AP.Before` (when `AP` has `Before`), then
`f`, then `AP.After` (when `AP` has `After`), each once and in this order, and calls
no hook the aspect lacks. The first call receives `args` and every later call the
same argument objects as the calls before it left them; when neither `f` nor
`Before` changes its arguments every call receives `args`. For `LoggingAspect` in
`main` the trace is `Before(1), foo(1)`. -/
theorem C7_single_aspect_hook_order {α : Type} (f : α → α) (AP : AspectType α) (args : α)
    (h : AP.has_member_Before = true ∨ AP.has_member_After = true) :
    Invoke f [AP] args =
        some ((if AP.has_member_Before then [Call.Before AP.name args] else []) ++
          [Call.m_func (if AP.has_member_Before then AP.Before args else args)] ++
          (if AP.has_member_After then
            [Call.After AP.name (f (if AP.has_member_Before then AP.Before args else args))]
          else [])) ∧
      ((∀ x, f x = x) → (∀ x, AP.Before x = x) →
        Invoke f [AP] args =
          some ((if AP.has_member_Before then [Call.Before AP.name args] else []) ++
            [Call.m_func args] ++
            (if AP.has_member_After then [Call.After AP.name args] else []))) ∧
      main = some [Call.Before "LoggingAspect" 1, Call.m_func 1] := by
  have key : Invoke f [AP] args =
      some ((if AP.has_member_Before then [Call.Before AP.name args] else []) ++
        [Call.m_func (if AP.has_member_Before then AP.Before args else args)] ++
        (if AP.has_member_After then
          [Call.After AP.name (f (if AP.has_member_Before then AP.Before args else args))]
        else [])) := by
    rcases AP with ⟨n, b, a, hb, ha⟩
    cases b <;> cases a <;> simp_all [Invoke, Aspect.Invoke]
  refine ⟨key, ?_, by decide⟩
  intro hf hB
  rw [key]
  simp [hf, hB]

theorem C7_single_aspect_hook_order_witness :
    (LoggingAspect.has_member_Before = true ∨ LoggingAspect.has_member_After = true) ∧
      Invoke foo [LoggingAspect] (1 : Int) =
        some [Call.Before "LoggingAspect" 1, Call.m_func 1] :=
  ⟨Or.inl rfl, (C7_single_aspect_hook_order foo LoggingAspect (1 : Int) (Or.inl rfl)).1⟩

/-- C10, the claim as stated fails: with the argument an `int` lvalue `1` and two
aspects whose hooks take `int&` and increment it, the calls are `A.Before(1)`,
`B.Before(2)`, `foo(3)`, `B.After(3)`, `A.After(4)`: the order is as claimed but the
calls do not all receive the same arguments. -/
theorem C10_counterexample_hooks_write_argument :
    Invoke foo [Bump "A", Bump "B"] (1 : Int) =
        some [Call.Before "A" 1, Call.Before "B" 2, Call.m_func 3, Call.After "B" 3,
          Call.After "A" 4] ∧
      Invoke foo [Bump "A", Bump "B"] (1 : Int) ≠
        some [Call.Before "A" 1, Call.Before "B" 1, Call.m_func 1, Call.After "B" 1,
          Call.After "A" 1] := by
  constructor <;> decide

/-- C10 as amended: for `n >= 2` aspects that all have `Before` and `After`,
`Invoke<A1,...,An>(f, args)` compiles and its calls are `A1.Before, ..., An.Before`,
then `f`, then `An.After, ..., A1.After`; `f` is called exactly once. The first call
receives `args` and every later call the same argument objects as the calls before
it left them; when neither `f` nor any hook changes its arguments, all calls receive
`args`. -/
theorem C10_nested_aspects_order {α : Type} (f : α → α) (APs : List (AspectType α))
    (args : α) (hn : 2 ≤ APs.length)
    (hall : ∀ A ∈ APs, A.has_member_Before = true ∧ A.has_member_After = true) :
    ∃ trace, Invoke f APs args = some trace ∧
      trace = beforeCalls args APs ++ [Call.m_func (afterBefores args APs)] ++
          afterCalls (f (afterBefores args APs)) APs ∧
      countFunc trace = 1 ∧
      ((∀ x, f x = x) → (∀ A ∈ APs, (∀ x, A.Before x = x) ∧ (∀ x, A.After x = x)) →
        trace = APs.map (fun A => Call.Before A.name args) ++ [Call.m_func args] ++
          APs.reverse.map (fun A => Call.After A.name args)) := by
  have hne : APs ≠ [] := by
    intro h0
    simp [h0] at hn
  refine ⟨_, by simp only [Invoke, Aspect.Invoke_both f APs args hne hall], rfl, ?_, ?_⟩
  · rw [countFunc_append, countFunc_append, countFunc_beforeCalls, countFunc_afterCalls]
    simp [countFunc]
  · intro hf hun
    obtain ⟨h1, h2, _, _⟩ := calls_unchanged APs hun args
    obtain ⟨_, _, _, h4⟩ := calls_unchanged APs hun (f (afterBefores args APs))
    rw [h1, h4, h2, hf]

theorem C10_nested_aspects_order_witness :
    2 ≤ [TimeElapsedAspect, Bump "B"].length ∧
      ∃ trace, Invoke foo [TimeElapsedAspect, Bump "B"] (1 : Int) = some trace ∧
        trace = [Call.Before "TimeElapsedAspect" 1, Call.Before "B" 1, Call.m_func 2,
          Call.After "B" 2, Call.After "TimeElapsedAspect" 3] ∧
        countFunc trace = 1 := by
  obtain ⟨trace, h1, h2, h3, _⟩ := C10_nested_aspects_order foo
    [TimeElapsedAspect, Bump "B"] (1 : Int) (by decide) (by decide)
  exact ⟨by decide, trace, h1, h2.trans (by decide), h3⟩

end AOP

namespace Any

theorem any.copy_eq {U : Type} {El : U → Type} (other : any El) : any.copy other = other := by
  rcases other with ⟨_ | c⟩ <;> rfl

/-- C6, the claim as stated fails for the type `any` itself: an `any` constructed
from an empty `any` is made by the copy constructor and is empty, and one
constructed from an `any` that holds the int 3 has `type()` equal to `typeid(int)`,
not to `typeid(any)`, the type of the value it was constructed from. -/
theorem C6_counterexample_any_from_any :
    (any.construct (Arg.anyValue (any.default CppType.El))).empty = true ∧
      (any.construct (Arg.anyValue (any.ofValue CppType.int (3 : Int)) :
        Arg CppType.El)).type = type_info.of CppType.int ∧
      (any.construct (Arg.anyValue (any.ofValue CppType.int (3 : Int)) :
        Arg CppType.El)).type ≠
        Arg.typeid (Arg.anyValue (any.ofValue CppType.int (3 : Int)) : Arg CppType.El) := by
  refine ⟨rfl, rfl, ?_⟩
  intro h
  cases h

/-- C6 as amended: for every value type `T` other than `any` and every value `v` of
`T`, an `any` constructed from `v` is not empty, its `type()` is `typeid(T)`, and
`any_cast<T>` passes the assertion and returns `v`; `main` reads back `3` and
`"demo"`. An `any` constructed from an `any` is a copy of it: empty exactly when
the original is, with the same `type()` and the same result of `any_cast<T>`. -/
theorem C6_any_round_trip {U : Type} [DecidableEq U] {El : U → Type} (T : U) (v : El T) :
    (any.construct (Arg.value T v : Arg El)).empty = false ∧
      (any.construct (Arg.value T v : Arg El)).type = Arg.typeid (Arg.value T v : Arg El) ∧
      (any.construct (Arg.value T v : Arg El)).type = type_info.of T ∧
      any_cast.assertion T (any.construct (Arg.value T v : Arg El)) = true ∧
      any_cast T (any.construct (Arg.value T v : Arg El)) = Outcome.value v ∧
      main = (Outcome.value 3, Outcome.value "demo") ∧
      (∀ other : any El,
        (any.construct (Arg.anyValue other)).empty = other.empty ∧
        (any.construct (Arg.anyValue other)).type = other.type ∧
        any_cast T (any.construct (Arg.anyValue other)) = any_cast T other) := by
  refine ⟨rfl, rfl, rfl, ?_, ?_, ?_, ?_⟩
  · simp [any_cast.assertion, any.type, any.construct, any.ofValue, holder.type]
  · simp [any_cast, any_cast.assertion, any.type, any.construct, any.ofValue, holder.type]
  · simp [main, any_cast, any_cast.assertion, any.type, any.construct, any.ofValue,
      holder.type]
  · intro other
    have hcopy : any.construct (Arg.anyValue other) = other := any.copy_eq other
    rw [hcopy]
    exact ⟨rfl, rfl, rfl⟩

/-- C9: `any_cast<T>(a)` passes its assertion exactly when `a` holds a value of type
`T`, and then it returns that value; a default constructed `any` is empty, its type
is `typeid(void)`, and for every value type the assertion fails, so the null
`content` is never used. -/
theorem C9_any_cast_assertion {U : Type} [DecidableEq U] {El : U → Type} (T : U)
    (a : any El) :
    (any_cast.assertion T a = true ↔ ∃ v : El T, a.content = some ⟨T, v⟩) ∧
      (any_cast T a = Outcome.assertion_failed ↔ ¬ ∃ v : El T, a.content = some ⟨T, v⟩) ∧
      (∀ v : El T, a.content = some ⟨T, v⟩ → any_cast T a = Outcome.value v) ∧
      any_cast T a ≠ Outcome.bad_cast ∧
      (any.default El).empty = true ∧
      (any.default El).type = type_info.void ∧
      any_cast.assertion T (any.default El) = false ∧
      any_cast T (any.default El) = Outcome.assertion_failed := by
  have key : any_cast.assertion T a = true ↔ ∃ v : El T, a.content = some ⟨T, v⟩ := by
    rcases a with ⟨_ | ⟨T', v'⟩⟩
    · simp [any_cast.assertion, any.type]
    · simp only [any_cast.assertion, any.type, holder.type, decide_eq_true_eq,
        type_info.of.injEq]
      constructor
      · rintro rfl
        exact ⟨v', rfl⟩
      · rintro ⟨v, hv⟩
        simp only [Option.some.injEq, holder.mk.injEq] at hv
        exact hv.1
  refine ⟨key, ?_, ?_, ?_, rfl, rfl, ?_, ?_⟩
  · rw [← key]
    rcases a with ⟨_ | ⟨T', v'⟩⟩
    · simp [any_cast, any_cast.assertion, any.type]
    · by_cases hT : T' = T
      · subst hT
        simp [any_cast, any_cast.assertion, any.type, holder.type]
      · simp [any_cast, any_cast.assertion, any.type, holder.type, hT]
  · intro v hv
    rcases a with ⟨c⟩
    simp only at hv
    subst hv
    simp [any_cast, any_cast.assertion, any.type, holder.type]
  · rcases a with ⟨_ | ⟨T', v'⟩⟩
    · simp [any_cast, any_cast.assertion, any.type]
    · by_cases hT : T' = T
      · subst hT
        simp [any_cast, any_cast.assertion, any.type, holder.type]
      · simp [any_cast, any_cast.assertion, any.type, holder.type, hT]
  · simp [any_cast.assertion, any.type, any.default]
  · simp [any_cast, any_cast.assertion, any.type, any.default]

end Any

namespace MemMgr

/-! ### The loops of the driver -/

/-- Loop rule: an invariant that holds at the start and is carried by every round
of the body holds after the loop, and the loop does not fault. -/
theorem forLoop_invariant {σ : Type} (body : Nat → σ → Except Fault σ)
    (Inv : Nat → σ → Prop) :
    ∀ (count lo : Nat) (s : σ), Inv lo s →
      (∀ j t, lo ≤ j → j < lo + count → Inv j t →
        ∃ t1, body j t = Except.ok t1 ∧ Inv (j + 1) t1) →
      ∃ s1, forLoop body count lo s = Except.ok s1 ∧ Inv (lo + count) s1
  | 0, lo, s, h0, _ => ⟨s, rfl, by simpa using h0⟩
  | count + 1, lo, s, h0, hstep => by
    obtain ⟨t1, hb, hI⟩ := hstep lo s (Nat.le_refl _) (by omega) h0
    obtain ⟨s1, hl, hI1⟩ := forLoop_invariant body Inv count (lo + 1) t1 hI
      (fun j t hj1 hj2 hInv => hstep j t (by omega) (by omega) hInv)
    refine ⟨s1, ?_, ?_⟩
    · simp only [forLoop, hb, hl]
    · have : lo + (count + 1) = lo + 1 + count := by omega
      rw [this]
      exact hI1

/-- The first `inner` rounds of line 16 on the ledger: the objects `f0 .. f0 + j - 1`
are outstanding and stored in slots `0 .. j - 1`. -/
theorem ledger_allocLoop (i inner : Nat) (array : List (Option Nat))
    (c0 d0 f0 pk0 a0 fr0 : Nat) (hsize : inner ≤ array.length) :
    ∃ array1 live,
      forLoop (allocStep ledgerRuntime i) inner 0
          (array, (⟨true, c0, d0, f0, [], pk0, a0, fr0⟩ : Ledger)) =
        Except.ok (array1, ⟨true, c0, d0, f0 + inner, live, max pk0 inner, a0 + inner, fr0⟩) ∧
      array1.length = array.length ∧
      (∀ t, t < inner → array1[t]? = some (some (f0 + t))) ∧
      live.Nodup ∧ live.length = inner ∧ (∀ x, x ∈ live ↔ f0 ≤ x ∧ x < f0 + inner) := by
  have key := forLoop_invariant (allocStep ledgerRuntime i)
    (fun j st => ∃ live, st.2 = ⟨true, c0, d0, f0 + j, live, max pk0 j, a0 + j, fr0⟩ ∧
      st.1.length = array.length ∧
      (∀ t, t < j → st.1[t]? = some (some (f0 + t))) ∧
      live.Nodup ∧ live.length = j ∧ (∀ x, x ∈ live ↔ f0 ≤ x ∧ x < f0 + j))
    inner 0 (array, ⟨true, c0, d0, f0, [], pk0, a0, fr0⟩)
    ⟨[], by simp, rfl, by intro t ht; omega, List.nodup_nil, rfl, by intro x; simp⟩
    (by
      rintro j ⟨arr, L⟩ _ hj ⟨live, hL, hlen, hslots, hnd, hll, hmem⟩
      simp only at hL hlen hslots
      subst hL
      have hjlt : j < arr.length := by omega
      refine ⟨(arr.set j (some (f0 + j)),
        ⟨true, c0, d0, f0 + j + 1, (f0 + j) :: live, max pk0 (j + 1), a0 + j + 1, fr0⟩), ?_,
        (f0 + j) :: live, rfl, ?_, ?_, ?_, ?_, ?_⟩
      · simp [allocStep, ledgerRuntime, store, hjlt, hll]
        omega
      · simpa using hlen
      · intro t ht
        simp only [List.getElem?_set]
        by_cases htj : j = t
        · subst htj
          simp [hjlt]
        · simp only [htj, if_false]
          exact hslots t (by omega)
      · refine List.nodup_cons.mpr ⟨?_, hnd⟩
        rw [hmem]
        omega
      · simp [hll]
      · intro x
        simp only [List.mem_cons, hmem]
        omega)
  obtain ⟨⟨arr1, L1⟩, hrun, live, hL, hlen, hslots, hnd, hll, hmem⟩ := key
  simp only [Nat.zero_add] at hL hlen hslots hnd hll hmem
  subst hL
  exact ⟨arr1, live, by simpa using hrun, hlen, hslots, hnd, hll, hmem⟩

/-- The `inner` rounds of line 19 on the ledger: every slot is read back and its
object, which is outstanding, is deleted; nothing is outstanding afterwards. -/
theorem ledger_freeLoop (inner : Nat) (array : List (Option Nat))
    (c0 d0 f0 f1 pk0 a0 fr0 : Nat) (live : List Nat)
    (hslots : ∀ t, t < inner → array[t]? = some (some (f0 + t)))
    (hnd : live.Nodup) (hmem : ∀ x, x ∈ live ↔ f0 ≤ x ∧ x < f0 + inner) :
    forLoop (freeStep ledgerRuntime) inner 0
        (array, (⟨true, c0, d0, f1, live, pk0, a0, fr0⟩ : Ledger)) =
      Except.ok (array, ⟨true, c0, d0, f1, [], pk0, a0, fr0 + inner⟩) := by
  have key := forLoop_invariant (freeStep ledgerRuntime)
    (fun j st => ∃ live1, st = (array, ⟨true, c0, d0, f1, live1, pk0, a0, fr0 + j⟩) ∧
      live1.Nodup ∧ (∀ x, x ∈ live1 ↔ f0 + j ≤ x ∧ x < f0 + inner))
    inner 0 (array, ⟨true, c0, d0, f1, live, pk0, a0, fr0⟩)
    ⟨live, rfl, hnd, by simpa using hmem⟩
    (by
      rintro j st _ hj ⟨live1, hst, hnd1, hmem1⟩
      subst hst
      have hin : f0 + j ∈ live1 := by
        rw [hmem1]
        omega
      refine ⟨(array, ⟨true, c0, d0, f1, live1.erase (f0 + j), pk0, a0, fr0 + j + 1⟩), ?_,
        live1.erase (f0 + j), rfl, hnd1.erase _, ?_⟩
      · simp [freeStep, ledgerRuntime, load, hslots j (by omega), hin]
      · intro x
        rw [hnd1.mem_erase_iff, hmem1]
        omega)
  obtain ⟨st, hrun, live1, hst, _, hmem1⟩ := key
  subst hst
  have hnil : live1 = [] := by
    apply List.eq_nil_iff_forall_not_mem.mpr
    intro x hx
    rw [hmem1] at hx
    omega
  subst hnil
  simpa using hrun

/-- One round of the outer loop on the ledger: `inner` objects are created and the
same `inner` objects are deleted. -/
theorem ledger_outerBody (i inner : Nat) (array : List (Option Nat))
    (c0 d0 f0 pk0 a0 fr0 : Nat) (hsize : inner ≤ array.length) :
    ∃ array1,
      outerBody ledgerRuntime inner i
          (array, (⟨true, c0, d0, f0, [], pk0, a0, fr0⟩ : Ledger)) =
        Except.ok (array1,
          ⟨true, c0, d0, f0 + inner, [], max pk0 inner, a0 + inner, fr0 + inner⟩) ∧
      array1.length = array.length := by
  obtain ⟨array1, live, hrun, hlen, hslots, hnd, _, hmem⟩ :=
    ledger_allocLoop i inner array c0 d0 f0 pk0 a0 fr0 hsize
  refine ⟨array1, ?_, hlen⟩
  simp only [outerBody, hrun]
  exact ledger_freeLoop inner array1 c0 d0 f0 (f0 + inner) (max pk0 inner) (a0 + inner) fr0 live
    hslots hnd hmem

/-- The driver on the ledger after `k` rounds of the outer loop. -/
theorem ledger_mainLoopWith (size inner k : Nat) (hsize : inner ≤ size) :
    ∃ array,
      mainLoopWith ledgerRuntime size inner k Ledger.start =
        Except.ok (array,
          ⟨true, 1, 0, k * inner, [], if k = 0 then 0 else inner, k * inner, k * inner⟩) ∧
      array.length = size := by
  have key := forLoop_invariant (outerBody ledgerRuntime inner)
    (fun j st => st.1.length = size ∧
      st.2 = ⟨true, 1, 0, j * inner, [], if j = 0 then 0 else inner, j * inner, j * inner⟩)
    k 0 (newArray size, ⟨true, 1, 0, 0, [], 0, 0, 0⟩)
    ⟨by simp [newArray], by simp⟩
    (by
      rintro j ⟨arr, L⟩ _ _ ⟨hlen, hL⟩
      simp only at hlen hL
      subst hL
      obtain ⟨array1, hrun, hlen1⟩ := ledger_outerBody j inner arr 1 0 (j * inner)
        (if j = 0 then 0 else inner) (j * inner) (j * inner) (by omega)
      refine ⟨_, hrun, by simpa [hlen1] using hlen, ?_⟩
      have hmax : max (if j = 0 then 0 else inner) inner = inner := by
        split <;> simp
      simp [hmax, Nat.succ_mul])
  obtain ⟨⟨arr, L⟩, hrun, hlen, hL⟩ := key
  simp only [Nat.zero_add] at hlen hL
  subst hL
  refine ⟨arr, ?_, hlen⟩
  simp only [mainLoopWith, ledgerRuntime, Ledger.start]
  exact hrun

/-- The whole driver on the ledger, for any array size and loop bounds. -/
theorem ledger_mainWith (size outer inner : Nat) (hsize : inner ≤ size) :
    mainWith ledgerRuntime size outer inner Ledger.start =
      Except.ok ⟨false, 1, 1, outer * inner, [], if outer = 0 then 0 else inner,
        outer * inner, outer * inner⟩ := by
  obtain ⟨array, hrun, _⟩ := ledger_mainLoopWith size inner outer hsize
  simp only [mainWith, hrun]
  rfl

/-- C8: the driver is balanced. Run against an observer that faults on any index
outside `array`, on any `new` or `delete` without an installed manager and on any
`delete` of an object that is not outstanding, `main` does not fault; it creates
one manager first and deletes it last, performs 500 * 1000 `new` and as many
`delete`, never has more than 1000 objects outstanding, and after each of the
`k <= 500` rounds of the outer loop nothing is outstanding, `k * 1000` objects
having been created and deleted. -/
theorem C8_driver_balanced :
    main ledgerRuntime Ledger.start =
        Except.ok ⟨false, 1, 1, 500 * 1000, [], 1000, 500 * 1000, 500 * 1000⟩ ∧
      ∀ k, k ≤ 500 → ∃ array s,
        mainLoopWith ledgerRuntime 1000 1000 k Ledger.start = Except.ok (array, s) ∧
        array.length = 1000 ∧ s.managerLive = true ∧ s.created = 1 ∧ s.deleted = 0 ∧
        s.live = [] ∧ s.allocs = k * 1000 ∧ s.frees = k * 1000 ∧ s.peak ≤ 1000 := by
  constructor
  · have h := ledger_mainWith 1000 500 1000 (Nat.le_refl _)
    rw [if_neg (by omega)] at h
    exact h
  · intro k _
    obtain ⟨array, hrun, hlen⟩ := ledger_mainLoopWith 1000 1000 k (Nat.le_refl _)
    refine ⟨array, _, hrun, hlen, rfl, rfl, rfl, rfl, rfl, rfl, ?_⟩
    simp only
    split <;> omega

end MemMgr

namespace MemMgr

/-! ### Bitmaps -/

theorem firstZero_some : ∀ (bm : List Bool) (i : Nat), firstZero bm = some i →
    i < bm.length ∧ bm[i]? = some false ∧ ∀ j, j < i → bm[j]? = some true
  | [], _, h => by simp [firstZero] at h
  | false :: rest, i, h => by
    simp only [firstZero, Option.some.injEq] at h
    subst h
    simp
  | true :: rest, i, h => by
    simp only [firstZero] at h
    cases hr : firstZero rest with
    | none => simp [hr] at h
    | some k =>
      simp only [hr, Option.some.injEq] at h
      subst h
      obtain ⟨h1, h2, h3⟩ := firstZero_some rest k hr
      refine ⟨by simpa using h1, by simpa using h2, ?_⟩
      intro j hj
      cases j with
      | zero => simp
      | succ j => simpa using h3 j (by omega)

theorem firstZero_none : ∀ (bm : List Bool), firstZero bm = none → zeroBits bm = 0
  | [], _ => rfl
  | false :: rest, h => by simp [firstZero] at h
  | true :: rest, h => by
    simp only [firstZero] at h
    cases hr : firstZero rest with
    | none => simpa [zeroBits] using firstZero_none rest hr
    | some k => simp [hr] at h

theorem zeroBits_set_true : ∀ (bm : List Bool) (i : Nat), bm[i]? = some false →
    zeroBits (bm.set i true) + 1 = zeroBits bm
  | [], _, h => by simp at h
  | b :: rest, 0, h => by
    simp only [List.getElem?_cons_zero, Option.some.injEq] at h
    subst h
    simp [zeroBits]
  | b :: rest, i + 1, h => by
    simp only [List.getElem?_cons_succ] at h
    have ih := zeroBits_set_true rest i h
    simp only [zeroBits] at ih ⊢
    cases b <;> simp [List.count_cons] <;> omega

theorem zeroBits_set_false : ∀ (bm : List Bool) (i : Nat), bm[i]? = some true →
    zeroBits (bm.set i false) = zeroBits bm + 1
  | [], _, h => by simp at h
  | b :: rest, 0, h => by
    simp only [List.getElem?_cons_zero, Option.some.injEq] at h
    subst h
    simp [zeroBits]
  | b :: rest, i + 1, h => by
    simp only [List.getElem?_cons_succ] at h
    have ih := zeroBits_set_false rest i h
    simp only [zeroBits] at ih ⊢
    cases b <;> simp [List.count_cons] <;> omega

theorem set_restore : ∀ (bm : List Bool) (i : Nat) (b : Bool), bm[i]? = some b →
    (bm.set i (!b)).set i b = bm
  | [], _, _, h => by simp at h
  | c :: rest, 0, b, h => by
    simp only [List.getElem?_cons_zero, Option.some.injEq] at h
    subst h
    simp
  | c :: rest, i + 1, b, h => by
    simp only [List.getElem?_cons_succ] at h
    simpa using set_restore rest i b h

theorem firstZero_filled (n m : Nat) :
    firstZero (List.replicate n true ++ List.replicate (m + 1) false) = some n := by
  induction n with
  | zero => simp [List.replicate_succ, firstZero]
  | succ n ih =>
    have : List.replicate (n + 1) true = true :: List.replicate n true := rfl
    rw [this, List.cons_append]
    simp only [firstZero, ih]

theorem set_filled (n m : Nat) :
    (List.replicate n true ++ List.replicate (m + 1) false).set n true =
      List.replicate (n + 1) true ++ List.replicate m false := by
  induction n with
  | zero => simp [List.replicate_succ]
  | succ n ih =>
    have : List.replicate (n + 1) true = true :: List.replicate n true := rfl
    rw [this, List.cons_append, List.set_cons_succ, ih]
    rfl

/-! ### One pool -/

theorem BlockPool.slot_owned (p : BlockPool) (hbs : 0 < p.blockSize) (i : Nat)
    (hi : i < p.blockCount) :
    p.ownsAddress (p.base + i * p.blockSize) = true ∧
      (p.base + i * p.blockSize - p.base) / p.blockSize = i := by
  have h1 : p.base + i * p.blockSize - p.base = i * p.blockSize := by omega
  have h2 : i * p.blockSize < p.blockSize * p.blockCount := by
    calc i * p.blockSize = p.blockSize * i := Nat.mul_comm _ _
      _ < p.blockSize * p.blockCount := Nat.mul_lt_mul_of_pos_left hi hbs
  refine ⟨?_, ?_⟩
  · simp only [BlockPool.ownsAddress, h1, Bool.and_eq_true, decide_eq_true_eq]
    refine ⟨⟨by omega, by omega⟩, Nat.mul_mod_left _ _⟩
  · rw [h1]
    exact Nat.mul_div_cancel _ hbs

theorem BlockPool.owned_slot (p : BlockPool) (a : Nat) (h : p.ownsAddress a = true) :
    p.base ≤ a ∧ a < p.base + p.blockSize * p.blockCount := by
  simp only [BlockPool.ownsAddress, Bool.and_eq_true, decide_eq_true_eq] at h
  exact ⟨h.1.1, h.1.2⟩

theorem BlockPool.free_occupied (p : BlockPool) (hbs : 0 < p.blockSize) (i : Nat)
    (hi : i < p.blockCount) (hbit : p.bitmap[i]? = some true) :
    p.free (p.base + i * p.blockSize) =
      (Except.ok (), { p with bitmap := p.bitmap.set i false, freeCount := p.freeCount + 1 }) := by
  obtain ⟨h1, _⟩ := p.slot_owned hbs i hi
  have h3 : i * p.blockSize / p.blockSize = i := Nat.mul_div_cancel _ hbs
  simp [BlockPool.free, h1, h3, hbit]

theorem BlockPool.free_vacant (p : BlockPool) (hbs : 0 < p.blockSize) (i : Nat)
    (hi : i < p.blockCount) (hbit : p.bitmap[i]? = some false) :
    p.free (p.base + i * p.blockSize) = (Except.error Error.DoubleFree, p) := by
  obtain ⟨h1, _⟩ := p.slot_owned hbs i hi
  have h3 : i * p.blockSize / p.blockSize = i := Nat.mul_div_cancel _ hbs
  simp [BlockPool.free, h1, h3, hbit]

theorem BlockPool.allocate_ok (p : BlockPool) (hwf : p.WF) (a : Nat) (p1 : BlockPool)
    (h : p.allocate = (Except.ok a, p1)) :
    ∃ i, firstZero p.bitmap = some i ∧ i < p.blockCount ∧ p.bitmap[i]? = some false ∧
      a = p.base + i * p.blockSize ∧ 0 < p.freeCount ∧
      p1 = { p with bitmap := p.bitmap.set i true, freeCount := p.freeCount - 1 } := by
  unfold BlockPool.allocate at h
  by_cases h0 : p.freeCount = 0
  · simp [h0] at h
  · simp only [h0, if_false] at h
    cases hz : firstZero p.bitmap with
    | none => simp [hz] at h
    | some i =>
      simp only [hz, Prod.mk.injEq, Except.ok.injEq] at h
      obtain ⟨hlt, hbit, _⟩ := firstZero_some p.bitmap i hz
      exact ⟨i, rfl, by rw [← hwf.2.1]; exact hlt, hbit, h.1.symm, by omega, h.2.symm⟩

theorem BlockPool.allocate_of_free (p : BlockPool) (hwf : p.WF) (hpos : 0 < p.freeCount) :
    ∃ a p1, p.allocate = (Except.ok a, p1) := by
  unfold BlockPool.allocate
  cases hz : firstZero p.bitmap with
  | none =>
    have := firstZero_none p.bitmap hz
    rw [← hwf.2.2] at this
    omega
  | some i =>
    have h0 : p.freeCount ≠ 0 := by omega
    rw [if_neg h0]
    exact ⟨_, _, rfl⟩

theorem BlockPool.allocate_exhausted (p : BlockPool) (h0 : p.freeCount = 0) :
    p.allocate = (Except.error Error.Exhausted, p) := by
  simp [BlockPool.allocate, h0]

theorem BlockPool.WF_allocate (p : BlockPool) (hwf : p.WF) (a : Nat) (p1 : BlockPool)
    (h : p.allocate = (Except.ok a, p1)) :
    p1.WF ∧ p1.base = p.base ∧ p1.blockSize = p.blockSize ∧ p1.blockCount = p.blockCount ∧
      p1.Issued a := by
  obtain ⟨i, _, hi, hbit, ha, hpos, hp1⟩ := p.allocate_ok hwf a p1 h
  subst hp1
  have hz := zeroBits_set_true p.bitmap i hbit
  have hlen : i < p.bitmap.length := by rw [hwf.2.1]; exact hi
  refine ⟨⟨hwf.1, by simpa using hwf.2.1, ?_⟩, rfl, rfl, rfl, i, hi, ha, ?_⟩
  · have := hwf.2.2
    simp only
    omega
  · simp [List.getElem?_set, hlen]

theorem BlockPool.allocate_filled (base B K n : Nat) (hn : n < K) :
    (BlockPool.filled base B K n).allocate =
      (Except.ok (base + n * B), BlockPool.filled base B K (n + 1)) := by
  obtain ⟨m, rfl⟩ : ∃ m, K = n + (m + 1) := ⟨K - n - 1, by omega⟩
  have e1 : n + (m + 1) - n = m + 1 := by omega
  have e2 : n + (m + 1) - (n + 1) = m := by omega
  simp only [BlockPool.filled, BlockPool.allocate, e1, e2, firstZero_filled, set_filled]
  simp

theorem BlockPool.create_eq_filled (base B K : Nat) :
    BlockPool.create base B K = BlockPool.filled base B K 0 := by
  simp [BlockPool.create, BlockPool.filled]

theorem BlockPool.allocateMany_filled (base B K : Nat) :
    ∀ (r n : Nat), n + r = K →
      (BlockPool.filled base B K n).allocateMany (r + 1) =
        ((List.range' n r).map (fun i => Except.ok (base + i * B)) ++
          [Except.error Error.Exhausted], BlockPool.filled base B K K)
  | 0, n, h => by
    have hn : n = K := by omega
    subst hn
    simp [BlockPool.allocateMany, BlockPool.allocate_exhausted, BlockPool.filled]
  | r + 1, n, h => by
    have ih := BlockPool.allocateMany_filled base B K r (n + 1) (by omega)
    rw [BlockPool.allocateMany]
    simp only [BlockPool.allocate_filled base B K n (by omega), ih]
    simp [List.range'_succ]

end MemMgr

namespace MemMgr

/-! ### The registry and the routing of `free` -/

theorem resolve_some : ∀ (pools : List BlockPool) (bytes h : Nat),
    SizeClassRegistry.resolve pools bytes = some h →
    ∃ p, pools[h]? = some p ∧ bytes ≤ p.blockSize
  | [], _, _, hr => by simp [SizeClassRegistry.resolve] at hr
  | q :: rest, bytes, h, hr => by
    unfold SizeClassRegistry.resolve at hr
    by_cases hq : bytes ≤ q.blockSize
    · simp only [hq, if_true, Option.some.injEq] at hr
      subst hr
      exact ⟨q, by simp, hq⟩
    · simp only [hq, if_false] at hr
      cases hrest : SizeClassRegistry.resolve rest bytes with
      | none => simp [hrest] at hr
      | some k =>
        simp only [hrest, Option.some.injEq] at hr
        subst hr
        obtain ⟨p, hp, hle⟩ := resolve_some rest bytes k hrest
        exact ⟨p, by simpa using hp, hle⟩

theorem apart_not_both (q p : BlockPool) (a : Nat) (hap : BlockPool.Apart q p)
    (hp : p.ownsAddress a = true) : q.ownsAddress a = false := by
  cases hq : q.ownsAddress a with
  | false => rfl
  | true =>
    have h1 := p.owned_slot a hp
    have h2 := q.owned_slot a hq
    unfold BlockPool.Apart at hap
    omega

theorem ownerOf_eq : ∀ (pools : List BlockPool) (h : Nat) (p : BlockPool) (a : Nat),
    pools.Pairwise BlockPool.Apart → pools[h]? = some p → p.ownsAddress a = true →
    ownerOf pools a = some h
  | [], _, _, _, _, hp, _ => by simp at hp
  | q :: rest, 0, p, a, _, hp, ho => by
    simp only [List.getElem?_cons_zero, Option.some.injEq] at hp
    subst hp
    simp [ownerOf, ho]
  | q :: rest, h + 1, p, a, hpw, hp, ho => by
    simp only [List.getElem?_cons_succ] at hp
    rw [List.pairwise_cons] at hpw
    have hq : q.ownsAddress a = false :=
      apart_not_both q p a (hpw.1 p (List.getElem?_mem hp)) ho
    have ih := ownerOf_eq rest h p a hpw.2 hp ho
    simp [ownerOf, hq, ih]

theorem map_set_same {β : Type} (g : BlockPool → β) : ∀ (pools : List BlockPool) (h : Nat)
    (p p1 : BlockPool), pools[h]? = some p → g p1 = g p →
    (pools.set h p1).map g = pools.map g
  | [], _, _, _, hp, _ => by simp at hp
  | q :: rest, 0, p, p1, hp, hg => by
    simp only [List.getElem?_cons_zero, Option.some.injEq] at hp
    subst hp
    simp [hg]
  | q :: rest, h + 1, p, p1, hp, hg => by
    simp only [List.getElem?_cons_succ] at hp
    simpa using map_set_same g rest h p p1 hp hg

theorem set_same : ∀ (pools : List BlockPool) (h : Nat) (p : BlockPool),
    pools[h]? = some p → pools.set h p = pools
  | [], _, _, hp => by simp at hp
  | q :: rest, 0, p, hp => by
    simp only [List.getElem?_cons_zero, Option.some.injEq] at hp
    subst hp
    rfl
  | q :: rest, h + 1, p, hp => by
    simp only [List.getElem?_cons_succ] at hp
    simpa using set_same rest h p hp

/-- Replacing a pool by one with the same arena keeps the arenas apart. -/
theorem pairwise_apart_set (pools : List BlockPool) (h : Nat) (p p1 : BlockPool)
    (hpw : pools.Pairwise BlockPool.Apart) (hp : pools[h]? = some p)
    (hb : p1.base = p.base) (hs : p1.blockSize = p.blockSize)
    (hc : p1.blockCount = p.blockCount) :
    (pools.set h p1).Pairwise BlockPool.Apart := by
  have hmap := map_set_same (fun q => (q.base, q.blockSize, q.blockCount)) pools h p p1 hp
    (by simp [hb, hs, hc])
  have key : ∀ l : List BlockPool, l.Pairwise BlockPool.Apart ↔
      (l.map (fun q => (q.base, q.blockSize, q.blockCount))).Pairwise
        (fun (x y : Nat × Nat × Nat) => x.1 + x.2.1 * x.2.2 ≤ y.1 ∨ y.1 + y.2.1 * y.2.2 ≤ x.1) := by
    intro l
    rw [List.pairwise_map]
    rfl
  rw [key, hmap, ← key]
  exact hpw

theorem wf_set (pools : List BlockPool) (h : Nat) (p1 : BlockPool)
    (hall : ∀ q ∈ pools, q.WF) (h1 : p1.WF) : ∀ q ∈ pools.set h p1, q.WF := by
  intro q hq
  rcases List.mem_or_eq_of_mem_set hq with hq | hq
  · exact hall q hq
  · exact hq ▸ h1

/-! ### The leak tracker -/

theorem lookup_insert (t : List (Nat × Allocation)) (a : Nat) (info : Allocation) :
    LeakTracker.lookup (LeakTracker.insert t a info) a = some info := by
  simp [LeakTracker.lookup, LeakTracker.insert]

/-! ### The manager -/

theorem MemoryManager.free_fallback {F : Type} (A : FallbackAllocator F) (m : MemoryManager F)
    (a bytes : Nat) (hl : LeakTracker.lookup m.tracker a = some ⟨none, bytes⟩) :
    m.free A a = (Except.ok (),
      { m with fallback := A.free m.fallback a, tracker := LeakTracker.remove m.tracker a }) := by
  simp only [MemoryManager.free, hl]

theorem MemoryManager.free_pool {F : Type} (A : FallbackAllocator F) (m : MemoryManager F)
    (a h i : Nat) (p : BlockPool)
    (hl : ∀ bytes, LeakTracker.lookup m.tracker a ≠ some ⟨none, bytes⟩)
    (hpw : m.pools.Pairwise BlockPool.Apart) (hp : m.pools[h]? = some p)
    (hbs : 0 < p.blockSize) (hi : i < p.blockCount) (ha : a = p.base + i * p.blockSize)
    (hbit : p.bitmap[i]? = some true) :
    m.free A a = (Except.ok (),
      { m with
        pools := m.pools.set h
          { p with bitmap := p.bitmap.set i false, freeCount := p.freeCount + 1 },
        tracker := LeakTracker.remove m.tracker a }) := by
  have hown : ownerOf m.pools a = some h :=
    ownerOf_eq m.pools h p a hpw hp (ha ▸ (p.slot_owned hbs i hi).1)
  have hfree := p.free_occupied hbs i hi hbit
  rw [← ha] at hfree
  unfold MemoryManager.free
  split
  · next bytes heq => exact absurd heq (hl _)
  · simp only [hown, hp, hfree]

end MemMgr

namespace MemMgr

theorem MemoryManager.allocateFallback_ok {F : Type} (A : FallbackAllocator F)
    (m : MemoryManager F) (bytes a : Nat) (m1 : MemoryManager F)
    (h : m.allocateFallback A bytes = (Except.ok a, m1)) :
    ∃ f1, A.allocate m.fallback bytes = some (a, f1) ∧
      m1 = { m with fallback := f1,
                    tracker := LeakTracker.insert m.tracker a ⟨none, bytes⟩ } := by
  unfold MemoryManager.allocateFallback at h
  cases hA : A.allocate m.fallback bytes with
  | none => simp [hA] at h
  | some r =>
    obtain ⟨a1, f1⟩ := r
    simp only [hA, Prod.mk.injEq, Except.ok.injEq] at h
    obtain ⟨h1, h2⟩ := h
    subst h1
    exact ⟨f1, rfl, h2.symm⟩

/-- What a successful `allocate` of the manager did: the fallback served it, or the
resolved pool handed out its first free slot. -/
theorem MemoryManager.manager_allocate_ok {F : Type} (A : FallbackAllocator F) (m : MemoryManager F)
    (bytes a : Nat) (m1 : MemoryManager F) (hwf : m.WF)
    (h : m.allocate A bytes = (Except.ok a, m1)) :
    (∃ f1, A.allocate m.fallback bytes = some (a, f1) ∧
      (SizeClassRegistry.resolve m.pools bytes = none ∨ m.fallbackOnExhausted = true) ∧
      m1 = { m with fallback := f1,
                    tracker := LeakTracker.insert m.tracker a ⟨none, bytes⟩ }) ∨
    (∃ hd p i, SizeClassRegistry.resolve m.pools bytes = some hd ∧ m.pools[hd]? = some p ∧
      i < p.blockCount ∧ p.bitmap[i]? = some false ∧ a = p.base + i * p.blockSize ∧
      0 < p.freeCount ∧
      m1 = { m with
        pools := m.pools.set hd
          { p with bitmap := p.bitmap.set i true, freeCount := p.freeCount - 1 },
        tracker := LeakTracker.insert m.tracker a ⟨some hd, bytes⟩ }) := by
  unfold MemoryManager.allocate at h
  cases hr : SizeClassRegistry.resolve m.pools bytes with
  | none =>
    simp only [hr] at h
    obtain ⟨f1, hA, hm1⟩ := MemoryManager.allocateFallback_ok A m bytes a m1 h
    exact Or.inl ⟨f1, hA, Or.inl rfl, hm1⟩
  | some hd =>
    obtain ⟨p, hp, _⟩ := resolve_some m.pools bytes hd hr
    simp only [hr, hp] at h
    cases hpa : p.allocate with
    | mk r p1 =>
      cases r with
      | error e =>
        simp only [hpa] at h
        by_cases hpol : m.fallbackOnExhausted = true
        · simp only [hpol, if_true] at h
          obtain ⟨f1, hA, hm1⟩ := MemoryManager.allocateFallback_ok A m bytes a m1 h
          exact Or.inl ⟨f1, hA, Or.inr hpol, hm1⟩
        · simp [hpol] at h
      | ok a1 =>
        simp only [hpa, Prod.mk.injEq, Except.ok.injEq] at h
        obtain ⟨h1, h2⟩ := h
        subst h1
        obtain ⟨i, _, hi, hbit, ha, hpos, hp1⟩ :=
          p.allocate_ok (hwf.1 p (List.getElem?_mem hp)) a1 p1 hpa
        subst hp1
        exact Or.inr ⟨hd, p, i, rfl, hp, hi, hbit, ha, hpos, h2.symm⟩

theorem MemoryManager.manager_WF_allocate {F : Type} (A : FallbackAllocator F) (m : MemoryManager F)
    (bytes a : Nat) (m1 : MemoryManager F) (hwf : m.WF)
    (h : m.allocate A bytes = (Except.ok a, m1)) : m1.WF := by
  rcases MemoryManager.manager_allocate_ok A m bytes a m1 hwf h with
    ⟨f1, _, _, hm1⟩ | ⟨hd, p, i, _, hp, hi, hbit, ha, hpos, hm1⟩
  · subst hm1
    exact hwf
  · subst hm1
    have hpwf := hwf.1 p (List.getElem?_mem hp)
    have hz := zeroBits_set_true p.bitmap i hbit
    refine ⟨wf_set _ _ _ hwf.1 ⟨hpwf.1, by simpa using hpwf.2.1, ?_⟩,
      pairwise_apart_set _ _ p _ hwf.2 hp rfl rfl rfl⟩
    have := hpwf.2.2
    simp only
    omega

/-- C2: in a manager that satisfies its invariant, an address obtained from
`allocate(s)` is accepted by the `free` that follows immediately; afterwards the
pools are as before the `allocate`, so every `freeCount` is unchanged, and in both
states every `freeCount` equals the number of zero bits of its bitmap. -/
theorem C2_allocate_free_round_trip {F : Type} (A : FallbackAllocator F)
    (m : MemoryManager F) (s a : Nat) (m1 : MemoryManager F) (hwf : m.WF)
    (halloc : m.allocate A s = (Except.ok a, m1)) :
    ∃ m2, m1.free A a = (Except.ok (), m2) ∧
      m2.freeCounts = m.freeCounts ∧ m2.pools = m.pools ∧
      (∀ p ∈ m1.pools, p.freeCount = zeroBits p.bitmap) ∧
      (∀ p ∈ m2.pools, p.freeCount = zeroBits p.bitmap) := by
  have hwf1 := MemoryManager.manager_WF_allocate A m s a m1 hwf halloc
  rcases MemoryManager.manager_allocate_ok A m s a m1 hwf halloc with
    ⟨f1, _, _, hm1⟩ | ⟨hd, p, i, _, hp, hi, hbit, ha, hpos, hm1⟩
  · have hl : LeakTracker.lookup m1.tracker a = some ⟨none, s⟩ := by
      subst hm1
      exact lookup_insert _ _ _
    refine ⟨_, MemoryManager.free_fallback A m1 a s hl, ?_, ?_,
      fun q hq => (hwf1.1 q hq).2.2, ?_⟩
    · subst hm1
      rfl
    · subst hm1
      rfl
    · subst hm1
      exact fun q hq => (hwf.1 q hq).2.2
  · have hpwf := hwf.1 p (List.getElem?_mem hp)
    have hlen : hd < m.pools.length := by
      rcases List.getElem?_eq_some_iff.mp hp with ⟨hlt, _⟩
      exact hlt
    have hilen : i < p.bitmap.length := by rw [hpwf.2.1]; exact hi
    have hl : ∀ bytes, LeakTracker.lookup m1.tracker a ≠ some ⟨none, bytes⟩ := by
      intro bytes
      subst hm1
      simp [lookup_insert]
    have hp1 : m1.pools[hd]? =
        some { p with bitmap := p.bitmap.set i true, freeCount := p.freeCount - 1 } := by
      subst hm1
      simp [List.getElem?_set, hlen]
    have hfree := MemoryManager.free_pool A m1 a hd i _ hl hwf1.2 hp1 hpwf.1 hi ha
      (by simp [List.getElem?_set, hilen])
    have hback : (⟨p.base, p.blockSize, p.blockCount, (p.bitmap.set i true).set i false,
        p.freeCount - 1 + 1⟩ : BlockPool) = p := by
      have h1 := set_restore p.bitmap i false hbit
      have h2 : p.freeCount - 1 + 1 = p.freeCount := by omega
      simp only [Bool.not_false] at h1
      rw [h1, h2]
    have hpools : m1.pools.set hd (⟨p.base, p.blockSize, p.blockCount,
        (p.bitmap.set i true).set i false, p.freeCount - 1 + 1⟩ : BlockPool) = m.pools := by
      rw [hback]
      subst hm1
      simp only [List.set_set]
      exact set_same _ _ _ hp
    refine ⟨_, hfree, ?_, ?_, fun q hq => (hwf1.1 q hq).2.2, ?_⟩
    · exact congrArg (List.map (fun q => q.freeCount)) hpools
    · exact hpools
    · intro q hq
      have hq1 : q ∈ m.pools := by
        rw [← hpools]
        exact hq
      exact (hwf.1 q hq1).2.2

end MemMgr

namespace MemMgr

theorem C2_allocate_free_round_trip_witness :
    exampleManager.WF ∧
      exampleManager.allocate bumpAllocator 50 =
        (Except.ok 1000, (exampleManager.allocate bumpAllocator 50).2) ∧
      ∃ m2, (exampleManager.allocate bumpAllocator 50).2.free bumpAllocator 1000 =
          (Except.ok (), m2) ∧
        m2.freeCounts = exampleManager.freeCounts ∧ m2.pools = exampleManager.pools ∧
        (∀ p ∈ (exampleManager.allocate bumpAllocator 50).2.pools,
          p.freeCount = zeroBits p.bitmap) ∧
        (∀ p ∈ m2.pools, p.freeCount = zeroBits p.bitmap) :=
  ⟨by decide, rfl,
    C2_allocate_free_round_trip bumpAllocator exampleManager 50 1000 _ (by decide) rfl⟩

/-- C4: for a pool that satisfies its invariant and an address `a` it has issued
(the address of an occupied slot), `free(a)` succeeds, and a second `free(a)` right
after it fails with `DoubleFree` and returns the pool unchanged, bitmap and
`freeCount` included; the first call raised `freeCount` by one. -/
theorem C4_double_free_detected (p : BlockPool) (a : Nat) (hwf : p.WF)
    (hissued : p.Issued a) :
    ∃ p1, p.free a = (Except.ok (), p1) ∧
      p1.free a = (Except.error Error.DoubleFree, p1) ∧
      (p1.free a).2.bitmap = p1.bitmap ∧ (p1.free a).2.freeCount = p1.freeCount ∧
      p1.freeCount = p.freeCount + 1 ∧ p1.WF := by
  obtain ⟨i, hi, ha, hbit⟩ := hissued
  subst ha
  have hilen : i < p.bitmap.length := by rw [hwf.2.1]; exact hi
  have h2 : (⟨p.base, p.blockSize, p.blockCount, p.bitmap.set i false,
      p.freeCount + 1⟩ : BlockPool).free (p.base + i * p.blockSize) =
      (Except.error Error.DoubleFree, ⟨p.base, p.blockSize, p.blockCount,
        p.bitmap.set i false, p.freeCount + 1⟩) :=
    BlockPool.free_vacant ⟨p.base, p.blockSize, p.blockCount, p.bitmap.set i false,
      p.freeCount + 1⟩ hwf.1 i hi (by simp [List.getElem?_set, hilen])
  refine ⟨_, p.free_occupied hwf.1 i hi hbit, h2, by rw [h2], by rw [h2], rfl, hwf.1,
    by simpa using hwf.2.1, ?_⟩
  have := zeroBits_set_false p.bitmap i hbit
  have := hwf.2.2
  simp only
  omega

theorem C4_double_free_detected_witness :
    (BlockPool.create 100 16 2).allocate.2.WF ∧
      (BlockPool.create 100 16 2).allocate.2.Issued 100 ∧
      ∃ p1, (BlockPool.create 100 16 2).allocate.2.free 100 = (Except.ok (), p1) ∧
        p1.free 100 = (Except.error Error.DoubleFree, p1) ∧
        (p1.free 100).2.bitmap = p1.bitmap ∧ (p1.free 100).2.freeCount = p1.freeCount ∧
        p1.freeCount = (BlockPool.create 100 16 2).allocate.2.freeCount + 1 ∧ p1.WF :=
  ⟨by decide, ⟨0, by decide, rfl, rfl⟩,
    C4_double_free_detected (BlockPool.create 100 16 2).allocate.2 100 (by decide)
      ⟨0, by decide, rfl, rfl⟩⟩

theorem MemoryManager.allocateAll_filled {F : Type} (A : FallbackAllocator F)
    (base B K : Nat) :
    ∀ (sizes : List Nat) (r n : Nat) (f : F) (t : List (Nat × Allocation)),
      sizes.length = r + 1 → n + r = K → (∀ s ∈ sizes, s ≤ B) →
      (MemoryManager.allocateAll A sizes ⟨[BlockPool.filled base B K n], false, f, t⟩).1 =
        (List.range' n r).map (fun i => Except.ok (base + i * B)) ++
          [Except.error Error.OutOfMemory]
  | [], _, _, _, _, hlen, _, _ => by simp at hlen
  | s :: rest, 0, n, f, t, hlen, hn, hle => by
    have hrest : rest = [] := by
      cases rest with
      | nil => rfl
      | cons x xs => simp at hlen
    have hnK : n = K := by omega
    have hs : s ≤ B := hle s (by simp)
    subst hrest hnK
    have hex : (BlockPool.filled base B n n).allocate =
        (Except.error Error.Exhausted, BlockPool.filled base B n n) :=
      BlockPool.allocate_exhausted _ (by simp [BlockPool.filled])
    have hres : SizeClassRegistry.resolve [BlockPool.filled base B n n] s = some 0 := by
      simp [SizeClassRegistry.resolve, BlockPool.filled, hs]
    simp [MemoryManager.allocateAll, MemoryManager.allocate, hres, hex]
  | s :: rest, r + 1, n, f, t, hlen, hn, hle => by
    have hs : s ≤ B := hle s (by simp)
    have hal := BlockPool.allocate_filled base B K n (by omega)
    have hres : SizeClassRegistry.resolve [BlockPool.filled base B K n] s = some 0 := by
      simp [SizeClassRegistry.resolve, BlockPool.filled, hs]
    have ih := MemoryManager.allocateAll_filled A base B K rest r (n + 1) f
      (LeakTracker.insert t (base + n * B) ⟨some 0, s⟩) (by simpa using hlen) (by omega)
      (fun x hx => hle x (List.mem_cons_of_mem _ hx))
    rw [MemoryManager.allocateAll]
    simp only [MemoryManager.allocate, hres, List.getElem?_cons_zero, hal, List.set_cons_zero,
      ih]
    simp [List.range'_succ]

/-- C5: a fresh pool of `K` slots of `B` bytes serves exactly `K` calls of
`allocate`, handing out `base + i * B` for `i = 0 .. K - 1` in this order, and the
call after them fails with `Exhausted`; the pool still has `K` slots and a bitmap of
`K` bits, all set. A manager with this one size class and fallback disabled serves
`K` requests of sizes `<= B` with the same addresses and, the pool being exhausted,
reports `OutOfMemory` for the next one. -/
theorem C5_pool_exhaustion {F : Type} (A : FallbackAllocator F) (f : F) (base B K : Nat)
    (sizes : List Nat) (hlen : sizes.length = K + 1) (hle : ∀ s ∈ sizes, s ≤ B) :
    (BlockPool.create base B K).allocateMany (K + 1) =
        ((List.range K).map (fun i => Except.ok (base + i * B)) ++
          [Except.error Error.Exhausted], ⟨base, B, K, List.replicate K true, 0⟩) ∧
      (MemoryManager.allocateAll A sizes (MemoryManager.create [⟨base, B, K⟩] false f)).1 =
        (List.range K).map (fun i => Except.ok (base + i * B)) ++
          [Except.error Error.OutOfMemory] := by
  constructor
  · rw [BlockPool.create_eq_filled, BlockPool.allocateMany_filled base B K K 0 (by omega),
      List.range_eq_range']
    simp [BlockPool.filled]
  · have h := MemoryManager.allocateAll_filled A base B K sizes K 0 f [] hlen (by omega) hle
    rw [List.range_eq_range']
    simpa [MemoryManager.create, BlockPool.create_eq_filled] using h

theorem C5_pool_exhaustion_witness :
    [8, 16, 1].length = 2 + 1 ∧ (∀ s ∈ [8, 16, 1], s ≤ 16) ∧
      (BlockPool.create 100 16 2).allocateMany (2 + 1) =
        ((List.range 2).map (fun i => Except.ok (100 + i * 16)) ++
          [Except.error Error.Exhausted], ⟨100, 16, 2, List.replicate 2 true, 0⟩) ∧
      (MemoryManager.allocateAll bumpAllocator [8, 16, 1]
          (MemoryManager.create [⟨100, 16, 2⟩] false 5000)).1 =
        (List.range 2).map (fun i => Except.ok (100 + i * 16)) ++
          [Except.error Error.OutOfMemory] :=
  ⟨rfl, by decide, C5_pool_exhaustion bumpAllocator 5000 100 16 2 [8, 16, 1] rfl (by decide)⟩

end MemMgr

namespace MemMgr

/-! ### No aliasing -/

theorem resolve_congr : ∀ (l1 l2 : List BlockPool) (bytes : Nat),
    l1.map (fun q => q.blockSize) = l2.map (fun q => q.blockSize) →
    SizeClassRegistry.resolve l1 bytes = SizeClassRegistry.resolve l2 bytes
  | [], [], _, _ => rfl
  | [], _ :: _, _, h => by simp at h
  | _ :: _, [], _, h => by simp at h
  | q1 :: r1, q2 :: r2, bytes, h => by
    simp only [List.map_cons, List.cons.injEq] at h
    simp only [SizeClassRegistry.resolve, h.1, resolve_congr r1 r2 bytes h.2]

theorem resolve_set (pools : List BlockPool) (hd : Nat) (p p1 : BlockPool) (bytes : Nat)
    (hp : pools[hd]? = some p) (hs : p1.blockSize = p.blockSize) :
    SizeClassRegistry.resolve (pools.set hd p1) bytes = SizeClassRegistry.resolve pools bytes :=
  resolve_congr _ _ bytes (map_set_same (fun q => q.blockSize) pools hd p p1 hp hs)

theorem hasSlot_owns (p : BlockPool) (a : Nat) (hbs : 0 < p.blockSize) (h : p.hasSlot a) :
    p.ownsAddress a = true := by
  obtain ⟨i, hi, ha⟩ := h
  subst ha
  exact (p.slot_owned hbs i hi).1

theorem owner_unique (pools : List BlockPool) (hall : ∀ q ∈ pools, q.WF)
    (hpw : pools.Pairwise BlockPool.Apart) (h1 h2 : Nat) (p1 p2 : BlockPool) (a : Nat)
    (hp1 : pools[h1]? = some p1) (hp2 : pools[h2]? = some p2)
    (hs1 : p1.hasSlot a) (hs2 : p2.hasSlot a) : h2 = h1 := by
  have e1 := ownerOf_eq pools h1 p1 a hpw hp1
    (hasSlot_owns p1 a (hall p1 (List.getElem?_mem hp1)).1 hs1)
  have e2 := ownerOf_eq pools h2 p2 a hpw hp2
    (hasSlot_owns p2 a (hall p2 (List.getElem?_mem hp2)).1 hs2)
  rw [e1] at e2
  exact (Option.some.inj e2).symm

theorem slot_index_unique (bs i j base : Nat) (hbs : 0 < bs)
    (h : base + i * bs = base + j * bs) : i = j := by
  have h1 : i * bs = j * bs := by omega
  exact Nat.eq_of_mul_eq_mul_right hbs h1

/-- One allocation served by a pool: the address was not occupied before, is
occupied afterwards, has a slot in the pools as they were, and everything occupied
stays occupied. -/
theorem MemoryManager.pool_allocate_fresh {F : Type} (m m1 : MemoryManager F)
    (hwf : m.WF) (hd i a : Nat) (p : BlockPool) (t1 : List (Nat × Allocation))
    (hp : m.pools[hd]? = some p) (hi : i < p.blockCount) (hbit : p.bitmap[i]? = some false)
    (ha : a = p.base + i * p.blockSize)
    (hm1 : m1 = { m with
      pools := m.pools.set hd
        { p with bitmap := p.bitmap.set i true, freeCount := p.freeCount - 1 },
      tracker := t1 }) :
    ¬ m.Occupied a ∧ m1.Occupied a ∧ (∀ b, m.Occupied b → m1.Occupied b) ∧
      (∀ b, m1.Occupied b → b ≠ a → m.Occupied b) ∧
      (∀ (h2 : Nat) (p2 : BlockPool), m1.pools[h2]? = some p2 →
        ∃ q : BlockPool, m.pools[h2]? = some q ∧
          q.base = p2.base ∧ q.blockSize = p2.blockSize ∧ q.blockCount = p2.blockCount) := by
  have hpwf := hwf.1 p (List.getElem?_mem hp)
  have hlen : hd < m.pools.length := (List.getElem?_eq_some_iff.mp hp).1
  have hilen : i < p.bitmap.length := by rw [hpwf.2.1]; exact hi
  subst hm1
  refine ⟨?_, ?_, ?_, ?_, ?_⟩
  · rintro ⟨h2, p2, hp2, i2, hi2, ha2, hbit2⟩
    have heq := owner_unique m.pools hwf.1 hwf.2 hd h2 p p2 a hp hp2 ⟨i, hi, ha⟩ ⟨i2, hi2, ha2⟩
    subst heq
    rw [hp] at hp2
    have hpp := Option.some.inj hp2
    subst hpp
    have hii := slot_index_unique p.blockSize i i2 p.base hpwf.1 (ha ▸ ha2)
    subst hii
    rw [hbit] at hbit2
    simp at hbit2
  · exact ⟨hd, (⟨p.base, p.blockSize, p.blockCount, p.bitmap.set i true, p.freeCount - 1⟩ : BlockPool),
      by simp [List.getElem?_set, hlen], i, hi, ha, by simp [List.getElem?_set, hilen]⟩
  · rintro b ⟨h2, p2, hp2, i2, hi2, hb2, hbit2⟩
    by_cases hh : hd = h2
    · subst hh
      rw [hp] at hp2
      have hpp := Option.some.inj hp2
      subst hpp
      refine ⟨hd, (⟨p.base, p.blockSize, p.blockCount, p.bitmap.set i true, p.freeCount - 1⟩ : BlockPool),
        by simp [List.getElem?_set, hlen], i2, hi2, hb2, ?_⟩
      simp only [List.getElem?_set, hilen]
      split
      · rfl
      · exact hbit2
    · exact ⟨h2, p2, by simp [List.getElem?_set, hh, hp2], i2, hi2, hb2, hbit2⟩
  · rintro b ⟨h2, p2, hp2, i2, hi2, hb2, hbit2⟩ hne
    by_cases hh : hd = h2
    · subst hh
      simp only [List.getElem?_set, hlen, if_true, Option.some.injEq] at hp2
      subst hp2
      refine ⟨hd, p, hp, i2, hi2, hb2, ?_⟩
      simp only [List.getElem?_set, hilen] at hbit2
      by_cases hii : i = i2
      · subst hii
        exact absurd (hb2.trans ha.symm) hne
      · simpa [hii] using hbit2
    · simp only [List.getElem?_set, hh, if_false] at hp2
      exact ⟨h2, p2, hp2, i2, hi2, hb2, hbit2⟩
  · intro h2 p2 hp2
    by_cases hh : hd = h2
    · subst hh
      simp only [List.getElem?_set, hlen, if_true, Option.some.injEq] at hp2
      subst hp2
      exact ⟨p, hp, rfl, rfl, rfl⟩
    · simp only [List.getElem?_set, hh, if_false] at hp2
      exact ⟨p2, hp2, rfl, rfl, rfl⟩

end MemMgr

namespace MemMgr

/-! ### The stress workload on the manager -/

theorem band_bit (rest : List Bool) (m : Nat) : ∀ j : Nat,
    (List.replicate j false ++ (List.replicate (m + 1) true ++ rest))[j]? = some true
  | 0 => by simp [List.replicate_succ]
  | j + 1 => by
    have : List.replicate (j + 1) false = false :: List.replicate j false := rfl
    rw [this, List.cons_append, List.getElem?_cons_succ]
    exact band_bit rest m j

theorem band_set (rest : List Bool) (m : Nat) : ∀ j : Nat,
    (List.replicate j false ++ (List.replicate (m + 1) true ++ rest)).set j false =
      List.replicate (j + 1) false ++ (List.replicate m true ++ rest)
  | 0 => by simp [List.replicate_succ]
  | j + 1 => by
    have : ∀ k, List.replicate (k + 1) false = false :: List.replicate k false := fun _ => rfl
    rw [this j, List.cons_append, List.set_cons_succ, band_set rest m j, this (j + 1)]
    rfl

theorem BlockPool.band_zero (base B K n : Nat) :
    BlockPool.band base B K 0 n = BlockPool.filled base B K n := by
  simp [BlockPool.band, BlockPool.filled]

theorem BlockPool.band_full (base B K n : Nat) (hn : n ≤ K) :
    BlockPool.band base B K n n = BlockPool.create base B K := by
  have h1 : n + (K - n) = K := by omega
  have h2 : K - n + n = K := by omega
  simp [BlockPool.band, BlockPool.create, h1, h2]

theorem BlockPool.free_band (base B K j n : Nat) (hB : 0 < B) (hj : j < n) (hn : n ≤ K) :
    (BlockPool.band base B K j n).free (base + j * B) =
      (Except.ok (), BlockPool.band base B K (j + 1) n) := by
  obtain ⟨m, hm⟩ : ∃ m, n - j = m + 1 := ⟨n - j - 1, by omega⟩
  have hm1 : n - (j + 1) = m := by omega
  have hbit : (BlockPool.band base B K j n).bitmap[j]? = some true := by
    simp only [BlockPool.band, hm]
    exact band_bit _ m j
  have h := (BlockPool.band base B K j n).free_occupied hB j (by simp only [BlockPool.band]; omega) hbit
  have hset : (BlockPool.band base B K j n).bitmap.set j false =
      (BlockPool.band base B K (j + 1) n).bitmap := by
    simp only [BlockPool.band, hm, hm1]
    exact band_set _ m j
  rw [show (BlockPool.band base B K j n).base + j * (BlockPool.band base B K j n).blockSize =
    base + j * B from rfl] at h
  rw [h, hset]
  have hfc : K - n + j + 1 = K - n + (j + 1) := by omega
  simp only [BlockPool.band, hfc]

theorem lookup_pool_tagged (t : List (Nat × Allocation)) (hd a bytes : Nat)
    (hl : ∀ e ∈ t, e.2.pool = some hd) :
    LeakTracker.lookup t a ≠ some ⟨none, bytes⟩ := by
  unfold LeakTracker.lookup
  cases hf : t.find? (fun e => e.1 == a) with
  | none => simp
  | some e =>
    have hmem := List.mem_of_find?_eq_some hf
    have := hl e hmem
    intro heq
    simp only [Option.some.injEq] at heq
    rw [heq] at this
    simp at this

theorem MemoryManager.manager_allocate_filled {F : Type} (A : FallbackAllocator F)
    (m : MemoryManager F) (hd base B K k sz : Nat)
    (hres : SizeClassRegistry.resolve m.pools sz = some hd)
    (hp : m.pools[hd]? = some (BlockPool.filled base B K k)) (hk : k < K) :
    m.allocate A sz = (Except.ok (base + k * B),
      { m with pools := m.pools.set hd (BlockPool.filled base B K (k + 1)),
               tracker := LeakTracker.insert m.tracker (base + k * B) ⟨some hd, sz⟩ }) := by
  simp only [MemoryManager.allocate, hres, hp, BlockPool.allocate_filled base B K k hk]

theorem MemoryManager.manager_free_band {F : Type} (A : FallbackAllocator F)
    (m : MemoryManager F) (hd base B K j n : Nat)
    (hl : ∀ e ∈ m.tracker, e.2.pool = some hd)
    (hpw : m.pools.Pairwise BlockPool.Apart)
    (hp : m.pools[hd]? = some (BlockPool.band base B K j n))
    (hB : 0 < B) (hj : j < n) (hn : n ≤ K) :
    m.free A (base + j * B) = (Except.ok (),
      { m with pools := m.pools.set hd (BlockPool.band base B K (j + 1) n),
               tracker := LeakTracker.remove m.tracker (base + j * B) }) := by
  have hown : ownerOf m.pools (base + j * B) = some hd :=
    ownerOf_eq m.pools hd _ _ hpw hp
      ((BlockPool.band base B K j n).slot_owned hB j (by simp only [BlockPool.band]; omega)).1
  unfold MemoryManager.free
  split
  · next bytes heq => exact absurd heq (lookup_pool_tagged _ hd _ _ hl)
  · simp only [hown, hp, BlockPool.free_band base B K j n hB hj hn]

end MemMgr

namespace MemMgr

/-- Line 16 repeated `n` times on the manager, starting with the pool `hd` fresh:
slot `k` of `array` receives `base + k * B`, the first `n` slots of the pool are
taken, and the tracker holds only these addresses, tagged with the pool. -/
theorem manager_allocLoop {F : Type} (A : FallbackAllocator F) (classes : List SizeClass)
    (pol : Bool) (f0 : F) (sz : Nat) (m0 : MemoryManager F) (hd base B K i n : Nat)
    (array : List (Option Nat))
    (hres : SizeClassRegistry.resolve m0.pools sz = some hd)
    (hp : m0.pools[hd]? = some (BlockPool.filled base B K 0))
    (ht : m0.tracker = []) (hn : n ≤ K) (hsize : n ≤ array.length) :
    ∃ array1 t,
      forLoop (allocStep (managerRuntime A classes pol f0 sz) i) n 0
          (array, (⟨some m0, none⟩ : Program F)) =
        Except.ok (array1,
          ⟨some { m0 with pools := m0.pools.set hd (BlockPool.filled base B K n),
                          tracker := t }, none⟩) ∧
      array1.length = array.length ∧
      (∀ k, k < n → array1[k]? = some (some (base + k * B))) ∧
      (∀ e ∈ t, e.2.pool = some hd ∧ ∃ k, k < n ∧ e.1 = base + k * B) := by
  have hlen : hd < m0.pools.length := (List.getElem?_eq_some_iff.mp hp).1
  have key := forLoop_invariant (allocStep (managerRuntime A classes pol f0 sz) i)
    (fun j st => ∃ t, st.2 = (⟨some { m0 with
          pools := m0.pools.set hd (BlockPool.filled base B K j),
          tracker := t }, none⟩ : Program F) ∧
      st.1.length = array.length ∧
      (∀ k, k < j → st.1[k]? = some (some (base + k * B))) ∧
      (∀ e ∈ t, e.2.pool = some hd ∧ ∃ k, k < j ∧ e.1 = base + k * B))
    n 0 (array, ⟨some m0, none⟩)
    ⟨[], by
        simp only
        rw [set_same m0.pools hd _ hp, ← ht],
      rfl, by intro k hk; omega, by simp⟩
    (by
      rintro j ⟨arr, prog⟩ _ hj ⟨t, hprog, hal, hslots, htr⟩
      simp only at hprog hal hslots
      subst hprog
      have hjlt : j < arr.length := by omega
      have hres1 : SizeClassRegistry.resolve
          (m0.pools.set hd (BlockPool.filled base B K j)) sz = some hd := by
        rw [resolve_set m0.pools hd _ (BlockPool.filled base B K j) sz hp rfl]
        exact hres
      have hstep := MemoryManager.manager_allocate_filled A
        ({ m0 with pools := m0.pools.set hd (BlockPool.filled base B K j), tracker := t })
        hd base B K j sz hres1 (by simp [List.getElem?_set, hlen]) (by omega)
      simp only [List.set_set] at hstep
      refine ⟨(arr.set j (some (base + j * B)),
        ⟨some { m0 with pools := m0.pools.set hd (BlockPool.filled base B K (j + 1)),
                        tracker := LeakTracker.insert t (base + j * B) ⟨some hd, sz⟩ }, none⟩),
        ?_, _, rfl, ?_, ?_, ?_⟩
      · simp only [allocStep, managerRuntime, hstep, store, hjlt, if_true]
      · simpa using hal
      · intro k hk
        simp only [List.getElem?_set]
        by_cases hkj : j = k
        · subst hkj
          simp [hjlt]
        · simp only [hkj, if_false]
          exact hslots k (by omega)
      · intro e he
        simp only [LeakTracker.insert, LeakTracker.remove, List.mem_cons, List.mem_filter] at he
        rcases he with rfl | ⟨he, _⟩
        · exact ⟨rfl, j, by omega, rfl⟩
        · obtain ⟨h1, k, hk, h2⟩ := htr e he
          exact ⟨h1, k, by omega, h2⟩)
  obtain ⟨⟨arr1, prog1⟩, hrun, t, hprog, hal, hslots, htr⟩ := key
  simp only [Nat.zero_add] at hprog hal hslots htr
  subst hprog
  exact ⟨arr1, t, by simpa using hrun, hal, hslots, htr⟩

/-- Line 19 repeated `n` times on the manager: every address is routed to the pool
`hd` and freed; the pool is fresh again and nothing is tracked. -/
theorem manager_freeLoop {F : Type} (A : FallbackAllocator F) (classes : List SizeClass)
    (pol : Bool) (f0 : F) (sz : Nat) (m0 : MemoryManager F) (hd base B K n : Nat)
    (array : List (Option Nat)) (t : List (Nat × Allocation))
    (hpw : m0.pools.Pairwise BlockPool.Apart)
    (hp : m0.pools[hd]? = some (BlockPool.filled base B K 0))
    (ht : m0.tracker = []) (hB : 0 < B) (hn : n ≤ K)
    (hslots : ∀ k, k < n → array[k]? = some (some (base + k * B)))
    (htr : ∀ e ∈ t, e.2.pool = some hd ∧ ∃ k, k < n ∧ e.1 = base + k * B) :
    forLoop (freeStep (managerRuntime A classes pol f0 sz)) n 0
        (array, (⟨some { m0 with pools := m0.pools.set hd (BlockPool.filled base B K n),
                                 tracker := t }, none⟩ : Program F)) =
      Except.ok (array, ⟨some m0, none⟩) := by
  have hlen : hd < m0.pools.length := (List.getElem?_eq_some_iff.mp hp).1
  have key := forLoop_invariant (freeStep (managerRuntime A classes pol f0 sz))
    (fun j st => ∃ t1, st = (array, (⟨some { m0 with
          pools := m0.pools.set hd (BlockPool.band base B K j n),
          tracker := t1 }, none⟩ : Program F)) ∧
      (∀ e ∈ t1, e.2.pool = some hd ∧ ∃ k, j ≤ k ∧ k < n ∧ e.1 = base + k * B))
    n 0 (array, ⟨some { m0 with pools := m0.pools.set hd (BlockPool.filled base B K n),
                                 tracker := t }, none⟩)
    ⟨t, by rw [BlockPool.band_zero], by
      intro e he
      obtain ⟨h1, k, hk, h2⟩ := htr e he
      exact ⟨h1, k, by omega, hk, h2⟩⟩
    (by
      rintro j st _ hj ⟨t1, hst, htr1⟩
      subst hst
      have hpw1 : (m0.pools.set hd (BlockPool.band base B K j n)).Pairwise BlockPool.Apart :=
        pairwise_apart_set m0.pools hd _ _ hpw hp rfl rfl rfl
      have hstep := MemoryManager.manager_free_band A
        ({ m0 with pools := m0.pools.set hd (BlockPool.band base B K j n), tracker := t1 })
        hd base B K j n (fun e he => (htr1 e he).1) hpw1
        (by simp [List.getElem?_set, hlen]) hB (by omega) hn
      simp only [List.set_set] at hstep
      refine ⟨(array, ⟨some { m0 with
          pools := m0.pools.set hd (BlockPool.band base B K (j + 1) n),
          tracker := LeakTracker.remove t1 (base + j * B) }, none⟩), ?_, _, rfl, ?_⟩
      · simp only [freeStep, managerRuntime, load, hslots j (by omega), hstep]
      · intro e he
        simp only [LeakTracker.remove, List.mem_filter, bne_iff_ne, ne_eq] at he
        obtain ⟨h1, k, hk1, hk2, h2⟩ := htr1 e he.1
        refine ⟨h1, k, ?_, hk2, h2⟩
        by_contra hcon
        have : k = j := by omega
        subst this
        exact he.2 h2)
  obtain ⟨st, hrun, t1, hst, htr1⟩ := key
  subst hst
  have hnil : t1 = [] := by
    apply List.eq_nil_iff_forall_not_mem.mpr
    intro e he
    obtain ⟨_, k, hk1, hk2, _⟩ := htr1 e he
    omega
  subst hnil
  rw [hrun]
  simp only [Nat.zero_add, BlockPool.band_full base B K n hn, ← BlockPool.create_eq_filled]
  rw [BlockPool.create_eq_filled, set_same m0.pools hd _ hp, ← ht]

end MemMgr

namespace MemMgr

theorem BlockPool.create_WF (base B K : Nat) (hB : 0 < B) : (BlockPool.create base B K).WF := by
  refine ⟨hB, by simp [BlockPool.create], ?_⟩
  simp [BlockPool.create, zeroBits]

/-- A manager constructed from a valid configuration satisfies the invariant. -/
theorem MemoryManager.manager_create_WF {F : Type} (classes : List SizeClass) (pol : Bool) (f0 : F)
    (hvalid : ValidClasses classes) : (MemoryManager.create classes pol f0).WF := by
  constructor
  · intro p hp
    simp only [MemoryManager.create, List.mem_map] at hp
    obtain ⟨c, hc, rfl⟩ := hp
    exact BlockPool.create_WF _ _ _ (hvalid.1 c hc)
  · simp only [MemoryManager.create]
    rw [List.pairwise_map]
    exact hvalid.2

theorem MemoryManager.create_fresh {F : Type} (classes : List SizeClass) (pol : Bool) (f0 : F) :
    (∀ p ∈ (MemoryManager.create classes pol f0).pools, p.freeCount = p.blockCount) ∧
      (MemoryManager.create classes pol f0).teardown = [] := by
  constructor
  · intro p hp
    simp only [MemoryManager.create, List.mem_map] at hp
    obtain ⟨c, _, rfl⟩ := hp
    rfl
  · rfl

/-- One round of the outer loop on the manager, started with every pool fresh and an
empty tracker, ends in the same manager state. -/
theorem manager_outerBody {F : Type} (A : FallbackAllocator F) (classes : List SizeClass)
    (pol : Bool) (f0 : F) (sz : Nat) (m0 : MemoryManager F) (hd base B K i n : Nat)
    (array : List (Option Nat))
    (hpw : m0.pools.Pairwise BlockPool.Apart)
    (hres : SizeClassRegistry.resolve m0.pools sz = some hd)
    (hp : m0.pools[hd]? = some (BlockPool.filled base B K 0))
    (ht : m0.tracker = []) (hB : 0 < B) (hn : n ≤ K) (hsize : n ≤ array.length) :
    ∃ array1,
      outerBody (managerRuntime A classes pol f0 sz) n i
          (array, (⟨some m0, none⟩ : Program F)) =
        Except.ok (array1, ⟨some m0, none⟩) ∧
      array1.length = array.length := by
  obtain ⟨array1, t, hrun, hal, hslots, htr⟩ :=
    manager_allocLoop A classes pol f0 sz m0 hd base B K i n array hres hp ht hn hsize
  refine ⟨array1, ?_, hal⟩
  simp only [outerBody, hrun]
  exact manager_freeLoop A classes pol f0 sz m0 hd base B K n array1 t hpw hp ht hB hn
    hslots htr

/-- The driver on the manager after `k` rounds of the outer loop: the manager is as
constructed. -/
theorem manager_mainLoopWith {F : Type} (A : FallbackAllocator F) (classes : List SizeClass)
    (pol : Bool) (f0 : F) (sz hd : Nat) (c : SizeClass) (size inner k : Nat)
    (hvalid : ValidClasses classes)
    (hres : SizeClassRegistry.resolve (MemoryManager.create classes pol f0).pools sz = some hd)
    (hc : classes[hd]? = some c) (hcap : inner ≤ c.blockCount) (hsize : inner ≤ size) :
    ∃ array,
      mainLoopWith (managerRuntime A classes pol f0 sz) size inner k (Program.start F) =
        Except.ok (array, ⟨some (MemoryManager.create classes pol f0), none⟩) ∧
      array.length = size := by
  have hwf := MemoryManager.manager_create_WF classes pol f0 hvalid
  have hp : (MemoryManager.create classes pol f0).pools[hd]? =
      some (BlockPool.filled c.base c.blockSize c.blockCount 0) := by
    simp only [MemoryManager.create, List.getElem?_map, hc, Option.map_some',
      BlockPool.create_eq_filled]
  have hB : 0 < c.blockSize := hvalid.1 c (List.getElem?_mem hc)
  have key := forLoop_invariant (outerBody (managerRuntime A classes pol f0 sz) inner)
    (fun _ st => st.1.length = size ∧
      st.2 = (⟨some (MemoryManager.create classes pol f0), none⟩ : Program F))
    k 0 (newArray size, ⟨some (MemoryManager.create classes pol f0), none⟩)
    ⟨by simp [newArray], rfl⟩
    (by
      rintro j ⟨arr, prog⟩ _ _ ⟨hlen, hprog⟩
      simp only at hlen hprog
      subst hprog
      obtain ⟨array1, hrun, hlen1⟩ := manager_outerBody A classes pol f0 sz
        (MemoryManager.create classes pol f0) hd c.base c.blockSize c.blockCount j inner arr
        hwf.2 hres hp rfl hB hcap (by omega)
      exact ⟨_, hrun, by simpa [hlen1] using hlen, rfl⟩)
  obtain ⟨⟨arr, prog⟩, hrun, hlen, hprog⟩ := key
  simp only at hlen hprog
  subst hprog
  refine ⟨arr, ?_, hlen⟩
  simp only [mainLoopWith, managerRuntime, Program.start]
  exact hrun

end MemMgr

namespace MemMgr

/-! ### Completion of the workload implies a clean manager, for every configuration -/

/-- Loop rule for runs that are only known to finish: an invariant carried by every
successful round of the body holds after a loop that finished. -/
theorem forLoop_finished {σ : Type} (body : Nat → σ → Except Fault σ)
    (Inv : Nat → σ → Prop) :
    ∀ (count lo : Nat) (s s1 : σ), Inv lo s →
      (∀ j t t1, lo ≤ j → j < lo + count → Inv j t → body j t = Except.ok t1 →
        Inv (j + 1) t1) →
      forLoop body count lo s = Except.ok s1 → Inv (lo + count) s1
  | 0, lo, s, s1, h0, _, hrun => by
    simp only [forLoop, Except.ok.injEq] at hrun
    subst hrun
    simpa using h0
  | count + 1, lo, s, s1, h0, hstep, hrun => by
    simp only [forLoop] at hrun
    cases hb : body lo s with
    | error e => simp [hb] at hrun
    | ok t1 =>
      simp only [hb] at hrun
      have hI := hstep lo s t1 (Nat.le_refl _) (by omega) h0 hb
      have := forLoop_finished body Inv count (lo + 1) t1 s1 hI
        (fun j t t2 hj1 hj2 hInv hbody => hstep j t t2 (by omega) (by omega) hInv hbody) hrun
      have e : lo + (count + 1) = lo + 1 + count := by omega
      rw [e]
      exact this

theorem count_true_add_zeroBits : ∀ bm : List Bool, bm.count true + zeroBits bm = bm.length
  | [] => rfl
  | b :: rest => by
    have ih := count_true_add_zeroBits rest
    simp only [zeroBits] at ih ⊢
    cases b <;> simp [List.count_cons] <;> omega

theorem count_true_set_true (bm : List Bool) (i : Nat) (h : bm[i]? = some false) :
    (bm.set i true).count true = bm.count true + 1 := by
  have h1 := count_true_add_zeroBits bm
  have h2 := count_true_add_zeroBits (bm.set i true)
  have h3 := zeroBits_set_true bm i h
  simp only [List.length_set] at h2
  omega

theorem count_true_set_false (bm : List Bool) (i : Nat) (h : bm[i]? = some true) :
    (bm.set i false).count true + 1 = bm.count true := by
  have h1 := count_true_add_zeroBits bm
  have h2 := count_true_add_zeroBits (bm.set i false)
  have h3 := zeroBits_set_false bm i h
  simp only [List.length_set] at h2
  omega

theorem occupiedSlots_set : ∀ (pools : List BlockPool) (hd : Nat) (p p1 : BlockPool),
    pools[hd]? = some p →
    occupiedSlots (pools.set hd p1) + p.bitmap.count true =
      occupiedSlots pools + p1.bitmap.count true
  | [], _, _, _, hp => by simp at hp
  | q :: rest, 0, p, p1, hp => by
    simp only [List.getElem?_cons_zero, Option.some.injEq] at hp
    subst hp
    simp only [List.set_cons_zero, occupiedSlots]
    omega
  | q :: rest, hd + 1, p, p1, hp => by
    simp only [List.getElem?_cons_succ] at hp
    have ih := occupiedSlots_set rest hd p p1 hp
    simp only [List.set_cons_succ, occupiedSlots]
    omega

theorem occupiedSlots_zero : ∀ (pools : List BlockPool), occupiedSlots pools = 0 →
    ∀ p ∈ pools, p.bitmap.count true = 0
  | [], _, p, hp => by simp at hp
  | q :: rest, h, p, hp => by
    simp only [occupiedSlots] at h
    rcases List.mem_cons.mp hp with rfl | hp
    · omega
    · exact occupiedSlots_zero rest (by omega) p hp

theorem fallbackTagged_remove_le (a : Nat) : ∀ t : List (Nat × Allocation),
    fallbackTagged (LeakTracker.remove t a) ≤ fallbackTagged t
  | [] => by simp [LeakTracker.remove]
  | e :: rest => by
    have ih := fallbackTagged_remove_le a rest
    simp only [LeakTracker.remove] at ih ⊢
    by_cases he : e.1 = a
    · simp only [List.filter_cons, he, bne_self_eq_false, Bool.false_eq_true, if_false,
        fallbackTagged]
      omega
    · have : (e.1 != a) = true := by simpa using he
      simp only [List.filter_cons, this, if_true, fallbackTagged]
      omega

theorem fallbackTagged_remove_lt (a : Nat) : ∀ t : List (Nat × Allocation),
    (∃ e ∈ t, e.1 = a ∧ e.2.pool = none) →
    fallbackTagged (LeakTracker.remove t a) + 1 ≤ fallbackTagged t
  | [], h => by simp at h
  | e :: rest, h => by
    have hle := fallbackTagged_remove_le a rest
    simp only [LeakTracker.remove] at hle ⊢
    by_cases he : e.1 = a
    · simp only [List.filter_cons, he, bne_self_eq_false, Bool.false_eq_true, if_false,
        fallbackTagged]
      by_cases hpool : e.2.pool = none
      · simp only [hpool, if_true]
        omega
      · obtain ⟨x, hx, hxa, hxp⟩ := h
        rcases List.mem_cons.mp hx with rfl | hx
        · exact absurd hxp hpool
        · have ih := fallbackTagged_remove_lt a rest ⟨x, hx, hxa, hxp⟩
          simp only [LeakTracker.remove] at ih
          omega
    · have hne : (e.1 != a) = true := by simpa using he
      obtain ⟨x, hx, hxa, hxp⟩ := h
      rcases List.mem_cons.mp hx with rfl | hx
      · exact absurd hxa he
      · have ih := fallbackTagged_remove_lt a rest ⟨x, hx, hxa, hxp⟩
        simp only [LeakTracker.remove] at ih
        simp only [List.filter_cons, hne, if_true, fallbackTagged]
        omega

theorem fallbackTagged_zero : ∀ t : List (Nat × Allocation), fallbackTagged t = 0 →
    ∀ e ∈ t, e.2.pool ≠ none
  | [], _, e, he => by simp at he
  | x :: rest, h, e, he => by
    simp only [fallbackTagged] at h
    rcases List.mem_cons.mp he with rfl | he
    · intro hp
      simp [hp] at h
    · exact fallbackTagged_zero rest (by omega) e he

theorem lookup_fallback_mem (t : List (Nat × Allocation)) (a bytes : Nat)
    (h : LeakTracker.lookup t a = some ⟨none, bytes⟩) :
    ∃ e ∈ t, e.1 = a ∧ e.2.pool = none := by
  unfold LeakTracker.lookup at h
  cases hf : t.find? (fun e => e.1 == a) with
  | none => simp [hf] at h
  | some e =>
    simp only [hf, Option.some.injEq] at h
    have hmem := List.mem_of_find?_eq_some hf
    have hkey := List.find?_some hf
    exact ⟨e, hmem, by simpa using hkey, by rw [h]⟩

end MemMgr

namespace MemMgr

theorem fallbackTagged_insert_le (t : List (Nat × Allocation)) (a : Nat) (info : Allocation) :
    fallbackTagged (LeakTracker.insert t a info) ≤
      fallbackTagged t + (if info.pool = none then 1 else 0) := by
  have := fallbackTagged_remove_le a t
  simp only [LeakTracker.insert, fallbackTagged]
  omega

/-- What a successful `free` of a pool did. -/
theorem BlockPool.free_ok (p p1 : BlockPool) (a : Nat) (h : p.free a = (Except.ok (), p1)) :
    ∃ idx, idx < p.bitmap.length ∧ a = p.base + idx * p.blockSize ∧
      p.bitmap[idx]? = some true ∧
      p1 = ⟨p.base, p.blockSize, p.blockCount, p.bitmap.set idx false, p.freeCount + 1⟩ := by
  unfold BlockPool.free at h
  by_cases hown : p.ownsAddress a = true
  · simp only [hown, if_true] at h
    by_cases hbit : p.bitmap.getD ((a - p.base) / p.blockSize) false = true
    · simp only [hbit, if_true, Prod.mk.injEq, true_and] at h
      simp only [BlockPool.ownsAddress, Bool.and_eq_true, decide_eq_true_eq] at hown
      have hget : p.bitmap[(a - p.base) / p.blockSize]? = some true := by
        rw [List.getD_eq_getElem?_getD] at hbit
        cases hg : p.bitmap[(a - p.base) / p.blockSize]? with
        | none => simp [hg] at hbit
        | some b =>
          simp only [hg, Option.getD_some] at hbit
          rw [hbit]
      have hlt : (a - p.base) / p.blockSize < p.bitmap.length :=
        (List.getElem?_eq_some_iff.mp hget).1
      refine ⟨(a - p.base) / p.blockSize, hlt, ?_, hget, h.symm⟩
      have hdm := Nat.div_add_mod (a - p.base) p.blockSize
      rw [hown.2, Nat.add_zero, Nat.mul_comm] at hdm
      omega
    · rw [if_neg hbit] at h
      simp at h
  · simp [hown] at h

/-- What a successful `free` of the manager did: the fallback took back an address
tagged "fallback", or a pool cleared the bit of an occupied slot. -/
theorem MemoryManager.manager_free_ok {F : Type} (A : FallbackAllocator F)
    (m m1 : MemoryManager F) (a : Nat) (h : m.free A a = (Except.ok (), m1)) :
    (∃ bytes, LeakTracker.lookup m.tracker a = some ⟨none, bytes⟩ ∧
      m1 = { m with fallback := A.free m.fallback a,
                    tracker := LeakTracker.remove m.tracker a }) ∨
    (∃ (hd : Nat) (p p1 : BlockPool), m.pools[hd]? = some p ∧
      p.free a = (Except.ok (), p1) ∧
      m1 = { m with pools := m.pools.set hd p1,
                    tracker := LeakTracker.remove m.tracker a }) := by
  have pool_case : (match ownerOf m.pools a with
      | none => (Except.error Error.UnknownAddress, m)
      | some handle =>
        match m.pools[handle]? with
        | none => (Except.error Error.UnknownAddress, m)
        | some p =>
          match p.free a with
          | (Except.ok _, p1) =>
            (Except.ok (),
              { m with pools := m.pools.set handle p1,
                       tracker := LeakTracker.remove m.tracker a })
          | (Except.error e, _) => (Except.error e, m)) = (Except.ok (), m1) →
      ∃ (hd : Nat) (p p1 : BlockPool), m.pools[hd]? = some p ∧
        p.free a = (Except.ok (), p1) ∧
        m1 = { m with pools := m.pools.set hd p1,
                      tracker := LeakTracker.remove m.tracker a } := by
    intro hc
    cases ho : ownerOf m.pools a with
    | none => simp [ho] at hc
    | some hd =>
      simp only [ho] at hc
      cases hp : m.pools[hd]? with
      | none => simp [hp] at hc
      | some p =>
        simp only [hp] at hc
        cases hf : p.free a with
        | mk r p1 =>
          cases r with
          | error e => simp [hf] at hc
          | ok u =>
            simp only [hf, Prod.mk.injEq, true_and] at hc
            exact ⟨hd, p, p1, hp, hf, hc.symm⟩
  unfold MemoryManager.free at h
  split at h
  · next bytes heq =>
    simp only [Prod.mk.injEq, true_and] at h
    exact Or.inl ⟨bytes, heq, h.symm⟩
  · exact Or.inr (pool_case h)

end MemMgr

namespace MemMgr

/-- A successful `allocate` keeps the manager consistent and hands out at most one
more slot or fallback block. -/
theorem MemoryManager.manager_allocate_step {F : Type} (A : FallbackAllocator F)
    (m m1 : MemoryManager F) (bytes a : Nat) (hc : m.Consistent)
    (h : m.allocate A bytes = (Except.ok a, m1)) :
    m1.Consistent ∧ m1.handedOut ≤ m.handedOut + 1 := by
  have hwf1 := MemoryManager.manager_WF_allocate A m bytes a m1 hc.1 h
  rcases MemoryManager.manager_allocate_ok A m bytes a m1 hc.1 h with
    ⟨f1, _, _, hm1⟩ | ⟨hd, p, i, _, hp, hi, hbit, ha, hpos, hm1⟩
  · refine ⟨⟨hwf1, ?_⟩, ?_⟩
    · intro e he hne
      subst hm1
      simp only [LeakTracker.insert, LeakTracker.remove, List.mem_cons, List.mem_filter] at he
      rcases he with rfl | ⟨he, _⟩
      · exact absurd rfl hne
      · exact hc.2 e he hne
    · subst hm1
      have := fallbackTagged_insert_le m.tracker a ⟨none, bytes⟩
      simp only [MemoryManager.handedOut]
      simp only [if_true] at this
      omega
  · obtain ⟨_, hocc, hmono, _, _⟩ :=
      MemoryManager.pool_allocate_fresh m m1 hc.1 hd i a p _ hp hi hbit ha hm1
    refine ⟨⟨hwf1, ?_⟩, ?_⟩
    · intro e he hne
      have he1 : e ∈ LeakTracker.insert m.tracker a ⟨some hd, bytes⟩ := by
        rw [hm1] at he
        exact he
      simp only [LeakTracker.insert, LeakTracker.remove, List.mem_cons, List.mem_filter] at he1
      rcases he1 with rfl | ⟨he1, _⟩
      · exact hocc
      · exact hmono e.1 (hc.2 e he1 hne)
    · subst hm1
      have h1 := fallbackTagged_insert_le m.tracker a ⟨some hd, bytes⟩
      have h2 := occupiedSlots_set m.pools hd p
        ⟨p.base, p.blockSize, p.blockCount, p.bitmap.set i true, p.freeCount - 1⟩ hp
      have h3 := count_true_set_true p.bitmap i hbit
      simp only [MemoryManager.handedOut]
      simp only [if_false, reduceCtorEq] at h1
      simp only at h2
      omega

theorem occupied_after_free {F : Type} (m m1 : MemoryManager F) (hd idx a b : Nat)
    (p : BlockPool)
    (hp : m.pools[hd]? = some p) (ha : a = p.base + idx * p.blockSize)
    (hm1 : m1.pools = m.pools.set hd
      ⟨p.base, p.blockSize, p.blockCount, p.bitmap.set idx false, p.freeCount + 1⟩)
    (hb : m.Occupied b) (hne : b ≠ a) : m1.Occupied b := by
  have hlen : hd < m.pools.length := (List.getElem?_eq_some_iff.mp hp).1
  obtain ⟨h2, p2, hp2, i2, hi2, hb2, hbit2⟩ := hb
  by_cases hh : hd = h2
  · subst hh
    rw [hp] at hp2
    have hpp := Option.some.inj hp2
    subst hpp
    have hii : idx ≠ i2 := by
      rintro rfl
      exact hne (hb2.trans ha.symm)
    refine ⟨hd, ⟨p.base, p.blockSize, p.blockCount, p.bitmap.set idx false, p.freeCount + 1⟩,
      by rw [hm1]; simp [List.getElem?_set, hlen], i2, hi2, hb2, ?_⟩
    simp only [List.getElem?_set, hii, if_false]
    exact hbit2
  · exact ⟨h2, p2, by rw [hm1]; simp [List.getElem?_set, hh, hp2], i2, hi2, hb2, hbit2⟩

/-- A successful `free` keeps the manager consistent and takes back exactly one slot
or at least one fallback block. -/
theorem MemoryManager.manager_free_step {F : Type} (A : FallbackAllocator F)
    (m m1 : MemoryManager F) (a : Nat) (hc : m.Consistent)
    (h : m.free A a = (Except.ok (), m1)) :
    m1.Consistent ∧ m1.handedOut + 1 ≤ m.handedOut := by
  rcases MemoryManager.manager_free_ok A m m1 a h with
    ⟨bytes, hl, hm1⟩ | ⟨hd, p, p1, hp, hf, hm1⟩
  · subst hm1
    refine ⟨⟨hc.1, ?_⟩, ?_⟩
    · intro e he hne
      simp only [LeakTracker.remove, List.mem_filter] at he
      exact hc.2 e he.1 hne
    · have := fallbackTagged_remove_lt a m.tracker (lookup_fallback_mem m.tracker a bytes hl)
      simp only [MemoryManager.handedOut]
      omega
  · obtain ⟨idx, hidx, ha, hbit, hp1⟩ := p.free_ok p1 a hf
    have hpwf := hc.1.1 p (List.getElem?_mem hp)
    subst hp1
    have hwf1 : m1.WF := by
      subst hm1
      have hz := zeroBits_set_false p.bitmap idx hbit
      refine ⟨wf_set _ _ _ hc.1.1 ⟨hpwf.1, by simpa using hpwf.2.1, ?_⟩,
        pairwise_apart_set _ _ p _ hc.1.2 hp rfl rfl rfl⟩
      have := hpwf.2.2
      simp only
      omega
    refine ⟨⟨hwf1, ?_⟩, ?_⟩
    · intro e he hne
      have he1 : e ∈ LeakTracker.remove m.tracker a := by
        rw [hm1] at he
        exact he
      simp only [LeakTracker.remove, List.mem_filter, bne_iff_ne, ne_eq] at he1
      exact occupied_after_free m m1 hd idx a e.1 p hp ha
        (by rw [hm1]) (hc.2 e he1.1 hne) he1.2
    · subst hm1
      have h1 := fallbackTagged_remove_le a m.tracker
      have h2 := occupiedSlots_set m.pools hd p
        ⟨p.base, p.blockSize, p.blockCount, p.bitmap.set idx false, p.freeCount + 1⟩ hp
      have h3 := count_true_set_false p.bitmap idx hbit
      simp only [MemoryManager.handedOut]
      simp only at h2
      omega

/-- A consistent manager that has nothing handed out has every pool fully free and
tracks nothing. -/
theorem MemoryManager.clean_of_handedOut_zero {F : Type} (m : MemoryManager F)
    (hc : m.Consistent) (h0 : m.handedOut = 0) :
    (∀ p ∈ m.pools, p.freeCount = p.blockCount) ∧ m.tracker = [] := by
  simp only [MemoryManager.handedOut] at h0
  have hocc : occupiedSlots m.pools = 0 := by omega
  have hfb : fallbackTagged m.tracker = 0 := by omega
  have hpools := occupiedSlots_zero m.pools hocc
  constructor
  · intro p hp
    have hwf := hc.1.1 p hp
    have := count_true_add_zeroBits p.bitmap
    have := hpools p hp
    have := hwf.2.1
    have := hwf.2.2
    omega
  · apply List.eq_nil_iff_forall_not_mem.mpr
    intro e he
    obtain ⟨h, p, hp, i, _, _, hbit⟩ := hc.2 e he (fallbackTagged_zero m.tracker hfb e he)
    have hmem : true ∈ p.bitmap := List.getElem?_mem hbit
    have hpos : 0 < p.bitmap.count true := List.count_pos_iff.mpr hmem
    have := hpools p (List.getElem?_mem hp)
    omega

theorem occupiedSlots_create (classes : List SizeClass) :
    occupiedSlots (classes.map (fun c => BlockPool.create c.base c.blockSize c.blockCount)) = 0 := by
  induction classes with
  | nil => rfl
  | cons c rest ih =>
    have hc : (List.replicate c.blockCount false).count true = 0 :=
      List.count_eq_zero.mpr (by simp)
    simp only [List.map_cons, occupiedSlots, ih]
    simpa [BlockPool.create] using hc

theorem MemoryManager.create_consistent {F : Type} (classes : List SizeClass) (pol : Bool)
    (f0 : F) (hvalid : ValidClasses classes) :
    (MemoryManager.create classes pol f0).Consistent ∧
      (MemoryManager.create classes pol f0).handedOut = 0 := by
  refine ⟨⟨MemoryManager.manager_create_WF classes pol f0 hvalid, ?_⟩, ?_⟩
  · intro e he
    simp [MemoryManager.create] at he
  · simp [MemoryManager.handedOut, MemoryManager.create, occupiedSlots_create, fallbackTagged]

end MemMgr

namespace MemMgr

theorem allocStep_manager_ok {F : Type} (A : FallbackAllocator F) (classes : List SizeClass)
    (pol : Bool) (f0 : F) (sz i j : Nat) (arr : List (Option Nat)) (m : MemoryManager F)
    (st1 : List (Option Nat) × Program F)
    (h : allocStep (managerRuntime A classes pol f0 sz) i j (arr, ⟨some m, none⟩) =
      Except.ok st1) :
    ∃ a m1, m.allocate A sz = (Except.ok a, m1) ∧ st1.2 = ⟨some m1, none⟩ := by
  simp only [allocStep, managerRuntime] at h
  cases ha : m.allocate A sz with
  | mk r m1 =>
    cases r with
    | error e => simp [ha] at h
    | ok a =>
      simp only [ha] at h
      cases hs : store arr j a with
      | error e => simp [hs] at h
      | ok arr1 =>
        simp only [hs, Except.ok.injEq] at h
        subst h
        exact ⟨a, m1, rfl, rfl⟩

theorem freeStep_manager_ok {F : Type} (A : FallbackAllocator F) (classes : List SizeClass)
    (pol : Bool) (f0 : F) (sz j : Nat) (arr : List (Option Nat)) (m : MemoryManager F)
    (st1 : List (Option Nat) × Program F)
    (h : freeStep (managerRuntime A classes pol f0 sz) j (arr, ⟨some m, none⟩) =
      Except.ok st1) :
    ∃ a m1, m.free A a = (Except.ok (), m1) ∧ st1.2 = ⟨some m1, none⟩ := by
  simp only [freeStep, managerRuntime] at h
  cases hl : load arr j with
  | error e => simp [hl] at h
  | ok a =>
    simp only [hl] at h
    cases hf : m.free A a with
    | mk r m1 =>
      cases r with
      | error e => simp [hf] at h
      | ok u =>
        simp only [hf, Except.ok.injEq] at h
        subst h
        exact ⟨a, m1, hf, rfl⟩

/-- One round of the outer loop that finishes, started with nothing handed out,
ends with nothing handed out: `n` successful `allocate` calls hand out at most `n`,
and each of the `n` successful `free` calls takes one back. -/
theorem manager_outerBody_finished {F : Type} (A : FallbackAllocator F)
    (classes : List SizeClass) (pol : Bool) (f0 : F) (sz i n : Nat)
    (arr : List (Option Nat)) (m : MemoryManager F) (st1 : List (Option Nat) × Program F)
    (hc : m.Consistent) (h0 : m.handedOut = 0)
    (hrun : outerBody (managerRuntime A classes pol f0 sz) n i (arr, ⟨some m, none⟩) =
      Except.ok st1) :
    ∃ m1, st1.2 = ⟨some m1, none⟩ ∧ m1.Consistent ∧ m1.handedOut = 0 := by
  simp only [outerBody] at hrun
  cases ha : forLoop (allocStep (managerRuntime A classes pol f0 sz) i) n 0
      (arr, (⟨some m, none⟩ : Program F)) with
  | error e => simp [ha] at hrun
  | ok mid =>
    simp only [ha] at hrun
    have hmid := forLoop_finished (allocStep (managerRuntime A classes pol f0 sz) i)
      (fun j st => ∃ mj, st.2 = (⟨some mj, none⟩ : Program F) ∧ mj.Consistent ∧
        mj.handedOut ≤ j)
      n 0 (arr, ⟨some m, none⟩) mid ⟨m, rfl, hc, by omega⟩
      (by
        rintro j ⟨arrj, progj⟩ t1 _ _ ⟨mj, hprog, hcj, hle⟩ hbody
        simp only at hprog
        subst hprog
        obtain ⟨a, m1, hal, hst⟩ := allocStep_manager_ok A classes pol f0 sz i j arrj mj t1 hbody
        obtain ⟨hc1, hle1⟩ := MemoryManager.manager_allocate_step A mj m1 sz a hcj hal
        exact ⟨m1, hst, hc1, by omega⟩) ha
    obtain ⟨mn, hprog, hcn, hle⟩ := hmid
    obtain ⟨arrn, progn⟩ := mid
    simp only at hprog
    subst hprog
    have hfin := forLoop_finished (freeStep (managerRuntime A classes pol f0 sz))
      (fun j st => ∃ mj, st.2 = (⟨some mj, none⟩ : Program F) ∧ mj.Consistent ∧
        mj.handedOut + j ≤ n)
      n 0 (arrn, ⟨some mn, none⟩) st1 ⟨mn, rfl, hcn, by omega⟩
      (by
        rintro j ⟨arrj, progj⟩ t1 _ _ ⟨mj, hprog, hcj, hle⟩ hbody
        simp only at hprog
        subst hprog
        obtain ⟨a, m1, hfr, hst⟩ := freeStep_manager_ok A classes pol f0 sz j arrj mj t1 hbody
        obtain ⟨hc1, hle1⟩ := MemoryManager.manager_free_step A mj m1 a hcj hfr
        exact ⟨m1, hst, hc1, by omega⟩) hrun
    obtain ⟨m1, hst, hc1, hle1⟩ := hfin
    exact ⟨m1, hst, hc1, by omega⟩

/-- Whenever the loops of the driver finish on the manager, the manager is
consistent and has nothing handed out. -/
theorem manager_mainLoopWith_finished {F : Type} (A : FallbackAllocator F)
    (classes : List SizeClass) (pol : Bool) (f0 : F) (sz size inner k : Nat)
    (hvalid : ValidClasses classes) (st : List (Option Nat) × Program F)
    (hrun : mainLoopWith (managerRuntime A classes pol f0 sz) size inner k (Program.start F) =
      Except.ok st) :
    ∃ m, st.2 = ⟨some m, none⟩ ∧ m.Consistent ∧ m.handedOut = 0 := by
  obtain ⟨hc0, h0⟩ := MemoryManager.create_consistent classes pol f0 hvalid
  have hrun1 : forLoop (outerBody (managerRuntime A classes pol f0 sz) inner) k 0
      (newArray size, (⟨some (MemoryManager.create classes pol f0), none⟩ : Program F)) =
      Except.ok st := by
    simpa only [mainLoopWith, managerRuntime, Program.start] using hrun
  have := forLoop_finished (outerBody (managerRuntime A classes pol f0 sz) inner)
    (fun _ s => ∃ m, s.2 = (⟨some m, none⟩ : Program F) ∧ m.Consistent ∧ m.handedOut = 0)
    k 0 _ st ⟨_, rfl, hc0, h0⟩
    (by
      rintro j ⟨arrj, progj⟩ t1 _ _ ⟨mj, hprog, hcj, hz⟩ hbody
      simp only at hprog
      subst hprog
      exact manager_outerBody_finished A classes pol f0 sz j inner arrj mj t1 hcj hz hbody)
    hrun1
  exact this

/-- C1: the stress workload of `main` on the modelled manager, for every valid
configuration, every fallback allocator, either exhaustion policy and every size of
`Complex`. Whenever the loops finish without a fault, `gMemoryManager` holds a
manager whose pools all have `freeCount = blockCount` and that tracks nothing, and
`delete gMemoryManager` reports no leak; the report of a finished `main` is empty.
The loops do finish when the size of `Complex` resolves to a size class of at least
1000 blocks. -/
theorem C1_stress_workload_clean {F : Type} (A : FallbackAllocator F)
    (classes : List SizeClass) (pol : Bool) (f0 : F) (sizeofComplex : Nat)
    (hvalid : ValidClasses classes) :
    (∀ array st,
        mainLoop (managerRuntime A classes pol f0 sizeofComplex) (Program.start F) =
          Except.ok (array, st) →
        ∃ m, st = ⟨some m, none⟩ ∧ (∀ p ∈ m.pools, p.freeCount = p.blockCount) ∧
          m.outstandingAllocations = [] ∧
          main (managerRuntime A classes pol f0 sizeofComplex) (Program.start F) =
            Except.ok ⟨none, some []⟩) ∧
      (∀ final,
        main (managerRuntime A classes pol f0 sizeofComplex) (Program.start F) =
          Except.ok final → final = ⟨none, some []⟩) ∧
      (∀ (hd : Nat) (c : SizeClass),
        SizeClassRegistry.resolve (MemoryManager.create classes pol f0).pools
          sizeofComplex = some hd →
        classes[hd]? = some c → 1000 ≤ c.blockCount →
        ∃ array st,
          mainLoop (managerRuntime A classes pol f0 sizeofComplex) (Program.start F) =
            Except.ok (array, st)) := by
  have part1 : ∀ array st,
      mainLoopWith (managerRuntime A classes pol f0 sizeofComplex) 1000 1000 500
          (Program.start F) = Except.ok (array, st) →
      ∃ m, st = ⟨some m, none⟩ ∧ (∀ p ∈ m.pools, p.freeCount = p.blockCount) ∧
        m.outstandingAllocations = [] ∧
        mainWith (managerRuntime A classes pol f0 sizeofComplex) 1000 500 1000
          (Program.start F) = Except.ok ⟨none, some []⟩ := by
    intro array st hrun
    obtain ⟨m, hst, hc, hz⟩ := manager_mainLoopWith_finished A classes pol f0 sizeofComplex
      1000 1000 500 hvalid (array, st) hrun
    simp only at hst
    subst hst
    obtain ⟨hfree, htr⟩ := m.clean_of_handedOut_zero hc hz
    have hout : m.outstandingAllocations = [] := by
      simp [MemoryManager.outstandingAllocations, htr]
    refine ⟨m, rfl, hfree, hout, ?_⟩
    simp only [mainWith, hrun]
    simp only [managerRuntime, MemoryManager.teardown, hout]
  refine ⟨part1, ?_, ?_⟩
  · intro final hfinal
    have hfinal1 : mainWith (managerRuntime A classes pol f0 sizeofComplex) 1000 500 1000
        (Program.start F) = Except.ok final := hfinal
    cases hloop : mainLoopWith (managerRuntime A classes pol f0 sizeofComplex) 1000 1000 500
        (Program.start F) with
    | error e =>
      simp only [mainWith, hloop] at hfinal1
      simp at hfinal1
    | ok st =>
      obtain ⟨array, prog⟩ := st
      obtain ⟨m, _, _, _, hmain⟩ := part1 array prog hloop
      rw [hmain] at hfinal1
      exact (Except.ok.inj hfinal1).symm
  · intro hd c hres hc hcap
    obtain ⟨array, hrun, _⟩ := manager_mainLoopWith A classes pol f0 sizeofComplex hd c
      1000 1000 500 hvalid hres hc hcap (Nat.le_refl _)
    exact ⟨array, _, hrun⟩

theorem C1_stress_workload_clean_witness :
    ValidClasses workloadClasses ∧
      ∃ array m,
        mainLoop (managerRuntime bumpAllocator workloadClasses false 0 24) (Program.start Nat) =
          Except.ok (array, ⟨some m, none⟩) ∧
        (∀ p ∈ m.pools, p.freeCount = p.blockCount) ∧
        m.outstandingAllocations = [] ∧
        main (managerRuntime bumpAllocator workloadClasses false 0 24) (Program.start Nat) =
          Except.ok ⟨none, some []⟩ := by
  have hvalid : ValidClasses workloadClasses := by simp [ValidClasses, workloadClasses]
  have h := C1_stress_workload_clean bumpAllocator workloadClasses false 0 24 hvalid
  obtain ⟨array, st, hrun⟩ := h.2.2 1 ⟨8192, 32, 1024⟩ rfl rfl (by decide)
  obtain ⟨m, hst, hfree, hout, hmain⟩ := h.1 array st hrun
  subst hst
  exact ⟨hvalid, array, m, hrun, hfree, hout, hmain⟩

end MemMgr
